import Mathlib

set_option maxHeartbeats 1000000

/- Verification of the rust-table repository: the self-delimiting binary codec
   (encode.rs / decode.rs), the log-structured table engine (table.rs), the
   exact integer/float comparison (cmp_fi.rs), the portable binary64
   serialization (f64_conv.rs) and the JSON value ordering and text parser
   (json.rs).  Rust byte buffers are modelled as lists of naturals below 256,
   u64 as Nat (with 2^64 bounds as hypotheses where overflow matters), i64 as
   Int (with two's-complement bounds as hypotheses), and an io::Read cursor as
   a list of remaining bytes. -/

/-- Decoder statistics from decode.rs (DecodeStats): total bytes read and
bytes that no longer contribute to live state. -/
structure DecodeStats where
  read : Nat
  discarded : Nat
deriving DecidableEq

/-- Decode failures from decode.rs (DecodeError).  The io::Error payload of
the IOError variant is not modelled; a list cursor never fails, so the model
only produces IOError as a fuel marker that is proved unreachable. -/
inductive DecodeError where
  | IOError
  | EOF
  | Null
  | PartialRead
deriving DecidableEq

/-- Reinterpretation of a byte as a signed i8, as in Rust (b as i8). -/
def byteToI8 (b : Nat) : Int := if b < 128 then (b : Int) else (b : Int) - 256

/-- Low byte of an i64 after an arithmetic shift, as in Rust ((n >> k) & 0xFF):
Int.emod by 256 is exactly the low 8 bits of the two's-complement form. -/
def i64Byte (n : Int) : Nat := (n % 256).toNat

namespace U64

/-- Encoding of a u64 from encode.rs: one byte below 0xFD, three bytes with
tag 0xFD below 0x10000, otherwise nine bytes with tag 0xFE, big-endian body.
Shifts n >> k are written n / 2^k. -/
def encode (n : Nat) : List Nat :=
  if n < 0xFD then [n % 256]
  else if n < 0x10000 then [0xFD, n / 2^8 % 256, n % 256]
  else [0xFE, n / 2^56 % 256, n / 2^48 % 256, n / 2^40 % 256, n / 2^32 % 256,
        n / 2^24 % 256, n / 2^16 % 256, n / 2^8 % 256, n % 256]

/-- Size of the encoding, from encode.rs encode_size for u64. -/
def encode_size (n : Nat) : Nat :=
  if n < 0xFD then 1 else if n < 0x10000 then 3 else 9

/-- Decoder for u64 from decode.rs, over a byte-list cursor.  Returns the
result, the remaining bytes, and the updated statistics.  A short read of k
of the requested bytes adds k to read and to discarded and fails with
PartialRead, exactly as in the source. -/
def decode_stats (src : List Nat) (s : DecodeStats) :
    Except DecodeError Nat × List Nat × DecodeStats :=
  match src with
  | [] => (.error .EOF, [], s)
  | b :: rest =>
    let s1 : DecodeStats := { s with read := s.read + 1 }
    if b < 0xFD then (.ok b, rest, s1)
    else if b = 0xFD then
      match rest with
      | b1 :: b2 :: rest2 =>
        (.ok (0x100 * b1 + b2), rest2, { s1 with read := s1.read + 2 })
      | _ => (.error .PartialRead, [],
              { s1 with read := s1.read + rest.length,
                        discarded := s1.discarded + rest.length })
    else if b = 0xFE then
      match rest with
      | b1 :: b2 :: b3 :: b4 :: b5 :: b6 :: b7 :: b8 :: rest2 =>
        (.ok (b1 * 2^56 + b2 * 2^48 + b3 * 2^40 + b4 * 2^32 + b5 * 2^24 +
              b6 * 2^16 + b7 * 2^8 + b8),
         rest2, { s1 with read := s1.read + 8 })
      | _ => (.error .PartialRead, [],
              { s1 with read := s1.read + rest.length,
                        discarded := s1.discarded + rest.length })
    else (.error .Null, rest, s1)

end U64

namespace I64

/-- Encoding of an i64 from encode.rs: one byte for -0x7F < n < 0x80, three
bytes with tag 0x81 for the i16 range, otherwise nine bytes with tag 0x80,
two's-complement big-endian. -/
def encode (n : Int) : List Nat :=
  if -0x7F < n ∧ n < 0x80 then [i64Byte n]
  else if -0x8000 ≤ n ∧ n < 0x8000 then [0x81, i64Byte (n / 2^8), i64Byte n]
  else [0x80, i64Byte (n / 2^56), i64Byte (n / 2^48), i64Byte (n / 2^40),
        i64Byte (n / 2^32), i64Byte (n / 2^24), i64Byte (n / 2^16),
        i64Byte (n / 2^8), i64Byte n]

/-- Size of the encoding, from encode.rs encode_size for i64. -/
def encode_size (n : Int) : Nat :=
  if -0x7F < n ∧ n < 0x80 then 1 else if -0x8000 ≤ n ∧ n < 0x8000 then 3 else 9

/-- Decoder for i64 from decode.rs.  The one-byte branch applies when the
leading byte read as an i8 exceeds -0x7F; tag 0x81 reads an i16; the only
remaining byte, 0x80, reads a full two's-complement i64.  The source
accumulates n = (n << 8) + b with no overflow for any 8 input bytes, so the
accumulation is written as the equivalent exact sum. -/
def decode_stats (src : List Nat) (s : DecodeStats) :
    Except DecodeError Int × List Nat × DecodeStats :=
  match src with
  | [] => (.error .EOF, [], s)
  | b :: rest =>
    let s1 : DecodeStats := { s with read := s.read + 1 }
    if byteToI8 b > -0x7F then (.ok (byteToI8 b), rest, s1)
    else if b = 0x81 then
      match rest with
      | b1 :: b2 :: rest2 =>
        (.ok (0x100 * byteToI8 b1 + b2), rest2, { s1 with read := s1.read + 2 })
      | _ => (.error .PartialRead, [],
              { s1 with read := s1.read + rest.length,
                        discarded := s1.discarded + rest.length })
    else
      match rest with
      | b1 :: b2 :: b3 :: b4 :: b5 :: b6 :: b7 :: b8 :: rest2 =>
        (.ok (byteToI8 b1 * 2^56 + b2 * 2^48 + b3 * 2^40 + b4 * 2^32 +
              b5 * 2^24 + b6 * 2^16 + b7 * 2^8 + b8),
         rest2, { s1 with read := s1.read + 8 })
      | _ => (.error .PartialRead, [],
              { s1 with read := s1.read + rest.length,
                        discarded := s1.discarded + rest.length })

end I64

namespace Bytes

/-- Encoding of a byte string from encode.rs (impl Encode for &[u8]): the
u64 encoding of the length followed by the raw bytes. -/
def encode (v : List Nat) : List Nat := U64.encode v.length ++ v

/-- Size of the encoding, from encode.rs encode_size for &[u8]. -/
def encode_size (v : List Nat) : Nat := U64.encode_size v.length + v.length

/-- Decoder for Vec<u8> from decode.rs: decode a u64 length n, then read n
raw bytes; a short read discards everything read since the start of the
value, as in the source (stats.read - pos). -/
def decode_stats (src : List Nat) (s : DecodeStats) :
    Except DecodeError (List Nat) × List Nat × DecodeStats :=
  let pos := s.read
  match U64.decode_stats src s with
  | (.error e, rest, s1) => (.error e, rest, s1)
  | (.ok n, rest, s1) =>
    let got := rest.take n
    let s2 : DecodeStats := { s1 with read := s1.read + got.length }
    if got.length = n then (.ok got, rest.drop n, s2)
    else (.error .PartialRead, rest.drop n,
          { s2 with discarded := s2.discarded + (s2.read - pos) })

end Bytes

namespace OptU64

/-- Encoding of Option<u64> from encode.rs: None is the single reserved byte
0xFF, Some n is the u64 encoding of n. -/
def encode (o : Option Nat) : List Nat :=
  match o with
  | none => [0xFF]
  | some n => U64.encode n

/-- Size of the encoding, from encode.rs encode_size for Option<u64>. -/
def encode_size (o : Option Nat) : Nat :=
  match o with
  | none => 1
  | some n => U64.encode_size n

/-- Modelled from the spec: the repository has no Decode impl for
Option<u64>; the spec says the 0xFF tag decodes as DecodeError::Null and that
a Null result where an optional value is expected denotes None (the implicit
option decoding the DataMap decoder uses for tombstones).  This decoder maps
the u64 decoder's Null error to None and its success to Some. -/
def decode_stats (src : List Nat) (s : DecodeStats) :
    Except DecodeError (Option Nat) × List Nat × DecodeStats :=
  match U64.decode_stats src s with
  | (.error .Null, rest, s1) => (.ok none, rest, s1)
  | (.error e, rest, s1) => (.error e, rest, s1)
  | (.ok n, rest, s1) => (.ok (some n), rest, s1)

end OptU64

theorem byteToI8_i64Byte {n : Int} (h1 : -128 ≤ n) (h2 : n < 128) :
    byteToI8 (i64Byte n) = n := by
  unfold byteToI8 i64Byte
  split <;> omega

theorem i64Byte_cast (k : Int) : ((i64Byte k : Nat) : Int) = k % 256 := by
  unfold i64Byte
  exact Int.toNat_of_nonneg (Int.emod_nonneg _ (by norm_num))

theorem U64.u64_decode_encode (n : Nat) (hn : n < 2^64) (ext : List Nat) (s : DecodeStats) :
    U64.decode_stats (U64.encode n ++ ext) s =
      (.ok n, ext, { s with read := s.read + (U64.encode n).length }) := by
  by_cases h1 : n < 0xFD
  · rw [U64.encode, if_pos h1]
    dsimp only [List.cons_append, List.nil_append, U64.decode_stats, List.length_cons,
      List.length_nil]
    rw [if_pos (by omega : n % 256 < 0xFD), Nat.mod_eq_of_lt (by omega : n < 256)]
  · by_cases h2 : n < 0x10000
    · rw [U64.encode, if_neg h1, if_pos h2]
      dsimp only [List.cons_append, List.nil_append, U64.decode_stats, List.length_cons,
        List.length_nil]
      rw [if_neg (by decide), if_pos rfl]
      simp only [Prod.mk.injEq, Except.ok.injEq, DecodeStats.mk.injEq, and_true, true_and,
        eq_self_iff_true]
      omega
    · rw [U64.encode, if_neg h1, if_neg h2]
      dsimp only [List.cons_append, List.nil_append, U64.decode_stats, List.length_cons,
        List.length_nil]
      rw [if_neg (by decide), if_neg (by decide), if_pos rfl]
      simp only [Prod.mk.injEq, Except.ok.injEq, DecodeStats.mk.injEq, and_true, true_and,
        eq_self_iff_true]
      omega

theorem I64.i64_decode_encode (n : Int) (h1 : -2^63 ≤ n) (h2 : n < 2^63)
    (ext : List Nat) (s : DecodeStats) :
    I64.decode_stats (I64.encode n ++ ext) s =
      (.ok n, ext, { s with read := s.read + (I64.encode n).length }) := by
  by_cases hb1 : -0x7F < n ∧ n < 0x80
  · have e : byteToI8 (i64Byte n) = n := byteToI8_i64Byte (by omega) (by omega)
    rw [I64.encode, if_pos hb1]
    dsimp only [List.cons_append, List.nil_append, I64.decode_stats, List.length_cons,
      List.length_nil]
    rw [e, if_pos (by omega : n > -0x7F)]
  · by_cases hb2 : -0x8000 ≤ n ∧ n < 0x8000
    · have e1 : byteToI8 (i64Byte (n / 2^8)) = n / 2^8 :=
        byteToI8_i64Byte (by omega) (by omega)
      rw [I64.encode, if_neg hb1, if_pos hb2]
      dsimp only [List.cons_append, List.nil_append, I64.decode_stats, List.length_cons,
        List.length_nil]
      rw [if_neg (by decide), if_pos rfl, e1]
      simp only [i64Byte_cast, Prod.mk.injEq, Except.ok.injEq, DecodeStats.mk.injEq, and_true,
        true_and, eq_self_iff_true]
      omega
    · have e1 : byteToI8 (i64Byte (n / 2^56)) = n / 2^56 :=
        byteToI8_i64Byte (by omega) (by omega)
      rw [I64.encode, if_neg hb1, if_neg hb2]
      dsimp only [List.cons_append, List.nil_append, I64.decode_stats, List.length_cons,
        List.length_nil]
      rw [if_neg (by decide), if_neg (by decide), e1]
      simp only [i64Byte_cast, Prod.mk.injEq, Except.ok.injEq, DecodeStats.mk.injEq, and_true,
        true_and, eq_self_iff_true]
      omega

theorem Bytes.bytes_decode_encode (v : List Nat) (hv : v.length < 2^64)
    (ext : List Nat) (s : DecodeStats) :
    Bytes.decode_stats (Bytes.encode v ++ ext) s =
      (.ok v, ext, { s with read := s.read + (Bytes.encode v).length }) := by
  unfold Bytes.encode Bytes.decode_stats
  rw [List.append_assoc, U64.u64_decode_encode v.length hv]
  simp [List.take_left', List.drop_left']
  omega

theorem OptU64.optu64_decode_encode (o : Option Nat) (ho : ∀ n ∈ o, n < 2^64)
    (ext : List Nat) (s : DecodeStats) :
    OptU64.decode_stats (OptU64.encode o ++ ext) s =
      (.ok o, ext, { s with read := s.read + (OptU64.encode o).length }) := by
  match o with
  | none =>
    simp [OptU64.encode, OptU64.decode_stats, U64.decode_stats]
  | some n =>
    have hn : n < 2^64 := ho n rfl
    simp only [OptU64.encode, OptU64.decode_stats, U64.u64_decode_encode n hn ext s]

/-- C2: decoding the binary encoding of any u64, i64, byte string or OptU64
value succeeds, yields exactly that value, and consumes exactly the bytes
that encode produced (any appended suffix is left untouched and read grows
by exactly the encoding's length).  The OptU64 decoder is the implicit one
(Null error = None) described by the spec. -/
theorem c2_codec_round_trip :
    (∀ (n : Nat) (ext : List Nat) (s : DecodeStats), n < 2^64 →
      U64.decode_stats (U64.encode n ++ ext) s =
        (.ok n, ext, { s with read := s.read + (U64.encode n).length })) ∧
    (∀ (n : Int) (ext : List Nat) (s : DecodeStats), -2^63 ≤ n → n < 2^63 →
      I64.decode_stats (I64.encode n ++ ext) s =
        (.ok n, ext, { s with read := s.read + (I64.encode n).length })) ∧
    (∀ (v : List Nat) (ext : List Nat) (s : DecodeStats), v.length < 2^64 →
      Bytes.decode_stats (Bytes.encode v ++ ext) s =
        (.ok v, ext, { s with read := s.read + (Bytes.encode v).length })) ∧
    (∀ (o : Option Nat) (ext : List Nat) (s : DecodeStats), (∀ n ∈ o, n < 2^64) →
      OptU64.decode_stats (OptU64.encode o ++ ext) s =
        (.ok o, ext, { s with read := s.read + (OptU64.encode o).length })) :=
  ⟨fun n ext s hn => U64.u64_decode_encode n hn ext s,
   fun n ext s h1 h2 => I64.i64_decode_encode n h1 h2 ext s,
   fun v ext s hv => Bytes.bytes_decode_encode v hv ext s,
   fun o ext s ho => OptU64.optu64_decode_encode o ho ext s⟩

theorem c2_codec_round_trip_witness :
    U64.decode_stats (U64.encode 123456789 ++ []) ⟨0, 0⟩ =
      (.ok 123456789, [], ⟨9, 0⟩) ∧
    I64.decode_stats (I64.encode (-320) ++ []) ⟨0, 0⟩ = (.ok (-320), [], ⟨3, 0⟩) ∧
    Bytes.decode_stats (Bytes.encode [72, 101, 108, 108, 111] ++ []) ⟨0, 0⟩ =
      (.ok [72, 101, 108, 108, 111], [], ⟨6, 0⟩) ∧
    OptU64.decode_stats (OptU64.encode none ++ []) ⟨0, 0⟩ = (.ok none, [], ⟨1, 0⟩) := by
  refine ⟨?_, ?_, ?_, ?_⟩
  · have h := c2_codec_round_trip.1 123456789 [] ⟨0, 0⟩ (by norm_num)
    simpa using h
  · have h := c2_codec_round_trip.2.1 (-320) [] ⟨0, 0⟩ (by norm_num) (by norm_num)
    simpa using h
  · have h := c2_codec_round_trip.2.2.1 [72, 101, 108, 108, 111] [] ⟨0, 0⟩ (by norm_num)
    simpa using h
  · have h := c2_codec_round_trip.2.2.2 none [] ⟨0, 0⟩ (by simp)
    simpa using h

/-- C3: the exact frontier byte sequences of the spec's table: u64 42, 320,
123456789; OptU64 None; Bytes "Hello"; i64 10, -10, 320, -320, 123456789,
-123456789, -0x7F and -0x80. -/
theorem c3_frontier_encodings :
    U64.encode 42 = [0x2A] ∧
    U64.encode 320 = [0xFD, 0x01, 0x40] ∧
    U64.encode 123456789 = [0xFE, 0x00, 0x00, 0x00, 0x00, 0x07, 0x5B, 0xCD, 0x15] ∧
    OptU64.encode none = [0xFF] ∧
    Bytes.encode [0x48, 0x65, 0x6C, 0x6C, 0x6F] = [0x05, 0x48, 0x65, 0x6C, 0x6C, 0x6F] ∧
    I64.encode 10 = [0x0A] ∧
    I64.encode (-10) = [0xF6] ∧
    I64.encode 320 = [0x81, 0x01, 0x40] ∧
    I64.encode (-320) = [0x81, 0xFE, 0xC0] ∧
    I64.encode 123456789 = [0x80, 0x00, 0x00, 0x00, 0x00, 0x07, 0x5B, 0xCD, 0x15] ∧
    I64.encode (-123456789) = [0x80, 0xFF, 0xFF, 0xFF, 0xFF, 0xF8, 0xA4, 0x32, 0xEB] ∧
    I64.encode (-0x7F) = [0x81, 0xFF, 0x81] ∧
    I64.encode (-0x80) = [0x81, 0xFF, 0x80] := by
  decide

theorem U64.u64_decode_ok_spec {bs : List Nat} {s s' : DecodeStats} {v : Nat} {rest : List Nat}
    (h : U64.decode_stats bs s = (.ok v, rest, s')) :
    rest.length < bs.length ∧
      ∀ ext, U64.decode_stats (bs ++ ext) s = (.ok v, rest ++ ext, s') := by
  match bs with
  | [] => simp [U64.decode_stats] at h
  | b :: r =>
    unfold U64.decode_stats at h ⊢
    dsimp only at h
    simp only [List.cons_append]
    by_cases c1 : b < 0xFD
    · simp only [if_pos c1] at h ⊢
      simp only [Prod.mk.injEq, Except.ok.injEq] at h
      obtain ⟨rfl, rfl, rfl⟩ := h
      simp
    · simp only [if_neg c1] at h ⊢
      by_cases c2 : b = 0xFD
      · simp only [if_pos c2] at h ⊢
        match r with
        | [] => simp at h
        | [b1] => simp at h
        | b1 :: b2 :: r2 =>
          simp only [Prod.mk.injEq, Except.ok.injEq, List.cons_append] at h ⊢
          obtain ⟨rfl, rfl, rfl⟩ := h
          refine ⟨by simp only [List.length_cons]; omega, fun ext => ⟨rfl, rfl, rfl⟩⟩
      · simp only [if_neg c2] at h ⊢
        by_cases c3 : b = 0xFE
        · simp only [if_pos c3] at h ⊢
          match r with
          | [] => simp at h
          | [b1] => simp at h
          | [b1, b2] => simp at h
          | [b1, b2, b3] => simp at h
          | [b1, b2, b3, b4] => simp at h
          | [b1, b2, b3, b4, b5] => simp at h
          | [b1, b2, b3, b4, b5, b6] => simp at h
          | [b1, b2, b3, b4, b5, b6, b7] => simp at h
          | b1 :: b2 :: b3 :: b4 :: b5 :: b6 :: b7 :: b8 :: r2 =>
            simp only [Prod.mk.injEq, Except.ok.injEq, List.cons_append] at h ⊢
            obtain ⟨rfl, rfl, rfl⟩ := h
            refine ⟨by simp only [List.length_cons]; omega, fun ext => ⟨rfl, rfl, rfl⟩⟩
        · simp only [if_neg c3] at h
          simp at h

theorem U64.u64_decode_null_spec {bs : List Nat} {s s' : DecodeStats} {rest : List Nat}
    (h : U64.decode_stats bs s = (.error .Null, rest, s')) :
    rest.length < bs.length ∧
      ∀ ext, U64.decode_stats (bs ++ ext) s = (.error .Null, rest ++ ext, s') := by
  match bs with
  | [] => simp [U64.decode_stats] at h
  | b :: r =>
    unfold U64.decode_stats at h ⊢
    dsimp only at h
    simp only [List.cons_append]
    by_cases c1 : b < 0xFD
    · simp only [if_pos c1] at h
      simp at h
    · simp only [if_neg c1] at h ⊢
      by_cases c2 : b = 0xFD
      · simp only [if_pos c2] at h
        match r with
        | [] => simp at h
        | [b1] => simp at h
        | b1 :: b2 :: r2 => simp at h
      · simp only [if_neg c2] at h ⊢
        by_cases c3 : b = 0xFE
        · simp only [if_pos c3] at h
          match r with
          | [] => simp at h
          | [b1] => simp at h
          | [b1, b2] => simp at h
          | [b1, b2, b3] => simp at h
          | [b1, b2, b3, b4] => simp at h
          | [b1, b2, b3, b4, b5] => simp at h
          | [b1, b2, b3, b4, b5, b6] => simp at h
          | [b1, b2, b3, b4, b5, b6, b7] => simp at h
          | b1 :: b2 :: b3 :: b4 :: b5 :: b6 :: b7 :: b8 :: r2 => simp at h
        · simp only [if_neg c3] at h ⊢
          simp only [Prod.mk.injEq, Except.error.injEq] at h
          obtain ⟨_, rfl, rfl⟩ := h
          refine ⟨by simp only [List.length_cons]; omega, fun ext => rfl⟩

theorem I64.i64_decode_ok_spec {bs : List Nat} {s s' : DecodeStats} {v : Int} {rest : List Nat}
    (h : I64.decode_stats bs s = (.ok v, rest, s')) :
    rest.length < bs.length ∧
      ∀ ext, I64.decode_stats (bs ++ ext) s = (.ok v, rest ++ ext, s') := by
  match bs with
  | [] => simp [I64.decode_stats] at h
  | b :: r =>
    unfold I64.decode_stats at h ⊢
    dsimp only at h
    simp only [List.cons_append]
    by_cases c1 : byteToI8 b > -0x7F
    · simp only [if_pos c1] at h ⊢
      simp only [Prod.mk.injEq, Except.ok.injEq] at h
      obtain ⟨rfl, rfl, rfl⟩ := h
      simp
    · simp only [if_neg c1] at h ⊢
      by_cases c2 : b = 0x81
      · simp only [if_pos c2] at h ⊢
        match r with
        | [] => simp at h
        | [b1] => simp at h
        | b1 :: b2 :: r2 =>
          simp only [Prod.mk.injEq, Except.ok.injEq, List.cons_append] at h ⊢
          obtain ⟨rfl, rfl, rfl⟩ := h
          refine ⟨by simp only [List.length_cons]; omega, fun ext => ⟨rfl, rfl, rfl⟩⟩
      · simp only [if_neg c2] at h ⊢
        match r with
        | [] => simp at h
        | [b1] => simp at h
        | [b1, b2] => simp at h
        | [b1, b2, b3] => simp at h
        | [b1, b2, b3, b4] => simp at h
        | [b1, b2, b3, b4, b5] => simp at h
        | [b1, b2, b3, b4, b5, b6] => simp at h
        | [b1, b2, b3, b4, b5, b6, b7] => simp at h
        | b1 :: b2 :: b3 :: b4 :: b5 :: b6 :: b7 :: b8 :: r2 =>
          simp only [Prod.mk.injEq, Except.ok.injEq, List.cons_append] at h ⊢
          obtain ⟨rfl, rfl, rfl⟩ := h
          refine ⟨by simp only [List.length_cons]; omega, fun ext => ⟨rfl, rfl, rfl⟩⟩

theorem Bytes.bytes_decode_ok_spec {bs : List Nat} {s s' : DecodeStats} {v : List Nat} {rest : List Nat}
    (h : Bytes.decode_stats bs s = (.ok v, rest, s')) :
    rest.length < bs.length ∧
      ∀ ext, Bytes.decode_stats (bs ++ ext) s = (.ok v, rest ++ ext, s') := by
  unfold Bytes.decode_stats at h ⊢
  rcases hu : U64.decode_stats bs s with ⟨res, r1, s1⟩
  rw [hu] at h
  match res with
  | .error e => simp at h
  | .ok n =>
    dsimp only at h
    by_cases cg : (r1.take n).length = n
    · simp only [if_pos cg] at h
      simp only [Prod.mk.injEq, Except.ok.injEq] at h
      obtain ⟨rfl, rfl, rfl⟩ := h
      obtain ⟨hlen, happ⟩ := U64.u64_decode_ok_spec hu
      have hn : n ≤ r1.length := by
        have := List.length_take n r1
        omega
      constructor
      · have := List.length_drop n r1
        omega
      · intro ext
        rw [happ ext]
        dsimp only
        rw [List.take_append_of_le_length hn, List.drop_append_of_le_length hn]
        simp only [if_pos cg]
    · simp only [if_neg cg] at h
      simp at h

theorem Bytes.bytes_decode_null_spec {bs : List Nat} {s s' : DecodeStats} {rest : List Nat}
    (h : Bytes.decode_stats bs s = (.error .Null, rest, s')) :
    rest.length < bs.length ∧
      ∀ ext, Bytes.decode_stats (bs ++ ext) s = (.error .Null, rest ++ ext, s') := by
  unfold Bytes.decode_stats at h ⊢
  rcases hu : U64.decode_stats bs s with ⟨res, r1, s1⟩
  rw [hu] at h
  match res with
  | .error e =>
    dsimp only at h
    simp only [Prod.mk.injEq, Except.error.injEq] at h
    obtain ⟨rfl, rfl, rfl⟩ := h
    obtain ⟨hlen, happ⟩ := U64.u64_decode_null_spec hu
    exact ⟨hlen, fun ext => by rw [happ ext]⟩
  | .ok n =>
    dsimp only at h
    by_cases cg : (r1.take n).length = n
    · simp only [if_pos cg] at h
      simp at h
    · simp only [if_neg cg] at h
      simp at h

/-- In-memory index: BTreeMap<i64, Vec<u8>> modelled as an association list
sorted by strictly increasing key, which is exactly the map's iteration
order. -/
abbrev DataMap := List (Int × List Nat)

namespace DataMap

/-- Lookup, as BTreeMap::get. -/
def get : DataMap → Int → Option (List Nat)
  | [], _ => none
  | (k, v) :: t, key => if key = k then some v else get t key

/-- Insertion keeping the key order, as BTreeMap::insert (replacing any
existing entry for the key). -/
def insert : DataMap → Int → List Nat → DataMap
  | [], key, val => [(key, val)]
  | (k, v) :: t, key, val =>
    if key < k then (key, val) :: (k, v) :: t
    else if key = k then (key, val) :: t
    else (k, v) :: insert t key val

/-- Removal, as BTreeMap::remove. -/
def remove : DataMap → Int → DataMap
  | [], _ => []
  | (k, v) :: t, key => if key = k then t else (k, v) :: remove t key

/-- Keys are strictly increasing: the BTreeMap representation invariant. -/
def Sorted (m : DataMap) : Prop := m.Pairwise (fun a b => a.1 < b.1)

/-- Encoding from encode.rs (impl Encode for BTreeMap<i64, Vec<u8>>): the
records encode(key) ++ encode(value) concatenated in iteration (ascending
key) order. -/
def encode : DataMap → List Nat
  | [] => []
  | (k, v) :: t => I64.encode k ++ Bytes.encode v ++ encode t

/-- Fuel-indexed decode loop from decode.rs (impl Decode for DataMap):
repeatedly decode an i64 key and a byte-string value, treating a Null value
as a tombstone that removes the key, counting redundant bytes as discarded;
EOF before a key ends the stream successfully.  Each iteration consumes at
least one byte, so fuel src.length + 1 never runs out (decodeLoop_fuel); the
fuel-exhaustion arm returns an IOError that is unreachable from the wrapper
decode_stats.  The source's data.remove / data.insert return the previous
value; this is modelled by the equivalent get-then-update. -/
def decodeLoop : Nat → List Nat → DataMap → DecodeStats →
    Except DecodeError DataMap × DecodeStats
  | 0, _, _, s => (.error .IOError, s)
  | fuel + 1, src, data, s =>
    let pos := s.read
    match I64.decode_stats src s with
    | (.error .EOF, _, s1) => (.ok data, s1)
    | (.error .IOError, _, s1) => (.error .IOError, s1)
    | (.error .Null, _, s1) => (.error .Null, s1)
    | (.error .PartialRead, _, s1) => (.error .PartialRead, s1)
    | (.ok key, rest, s1) =>
      let keysize := s1.read - pos
      match Bytes.decode_stats rest s1 with
      | (.error .Null, rest2, s2) =>
        let s3 : DecodeStats := { s2 with discarded := s2.discarded + (keysize + 1) }
        match DataMap.get data key with
        | some value =>
          decodeLoop fuel rest2 (DataMap.remove data key)
            { s3 with discarded := s3.discarded + (keysize + Bytes.encode_size value) }
        | none => decodeLoop fuel rest2 data s3
      | (.error .IOError, _, s2) => (.error .IOError, s2)
      | (.error .EOF, _, s2) => (.error .EOF, s2)
      | (.error .PartialRead, _, s2) => (.error .PartialRead, s2)
      | (.ok value, rest2, s2) =>
        match DataMap.get data key with
        | some old =>
          decodeLoop fuel rest2 (DataMap.insert data key value)
            { s2 with discarded := s2.discarded + (keysize + Bytes.encode_size old) }
        | none => decodeLoop fuel rest2 (DataMap.insert data key value) s2

/-- Decoder for the whole map, starting from the empty index. -/
def decode_stats (src : List Nat) (s : DecodeStats) :
    Except DecodeError DataMap × DecodeStats :=
  decodeLoop (src.length + 1) src [] s

end DataMap

/-- Table errors from table.rs (TableError); the io::Error payload is not
modelled. -/
inductive TableError where
  | IOError
  | DecodeError (e : DecodeError)
  | NotWritable
deriving DecidableEq

/-- A Table from table.rs: the in-memory sorted index plus, when writable,
the open file handle.  The handle is modelled together with the current byte
content of the log file it is appending to. -/
structure Table where
  file : Option (List Nat)
  map : DataMap
deriving DecidableEq

namespace Table

/-- Table::open (read-only): decode the whole file into the index; no file
handle is kept.  The read/discarded statistics are only printed by the
source, so they are dropped here. -/
def openRead (content : List Nat) : Except TableError Table :=
  match DataMap.decode_stats content ⟨0, 0⟩ with
  | (.error de, _) => .error (.DecodeError de)
  | (.ok m, _) => .ok { file := none, map := m }

/-- Table::open_rw: decode the whole file into the index and keep the
read/write handle (opening with create, so a missing file reads as empty). -/
def open_rw (content : List Nat) : Except TableError Table :=
  match DataMap.decode_stats content ⟨0, 0⟩ with
  | (.error de, _) => .error (.DecodeError de)
  | (.ok m, _) => .ok { file := some content, map := m }

/-- Table::insert: require the handle, append encode(key) ++ encode(value)
to the log, then update the index, returning the previous value. -/
def insert (t : Table) (key : Int) (value : List Nat) :
    Except TableError (Option (List Nat)) × Table :=
  match t.file with
  | none => (.error .NotWritable, t)
  | some fc =>
    (.ok (DataMap.get t.map key),
     { file := some (fc ++ I64.encode key ++ Bytes.encode value),
       map := DataMap.insert t.map key value })

/-- Table::remove: require the handle, append encode(key) ++ [0xFF] (the
None tombstone) to the log, then remove from the index, returning the
previous value. -/
def remove (t : Table) (key : Int) :
    Except TableError (Option (List Nat)) × Table :=
  match t.file with
  | none => (.error .NotWritable, t)
  | some fc =>
    (.ok (DataMap.get t.map key),
     { file := some (fc ++ I64.encode key ++ OptU64.encode none),
       map := DataMap.remove t.map key })

/-- Outcomes of the fallible filesystem steps of Table::compact: opening the
temporary file, writing the map to it, renaming it over the main path, and
reopening the main path in append mode.  The source performs them in this
order and returns the first failure as an IOError. -/
structure CompactEnv where
  openTemp : Bool
  writeAll : Bool
  renameFile : Bool
  reopen : Bool
deriving DecidableEq

/-- Table::compact: require the handle and drop it first; then run the four
fallible steps; on success the file at path holds exactly the canonical
encoding of the index and the reinstalled handle appends to it. -/
def compact (env : CompactEnv) (t : Table) : Except TableError Unit × Table :=
  match t.file with
  | none => (.error .NotWritable, t)
  | some _ =>
    let t1 : Table := { t with file := none }
    if ¬env.openTemp then (.error .IOError, t1)
    else if ¬env.writeAll then (.error .IOError, t1)
    else if ¬env.renameFile then (.error .IOError, t1)
    else if ¬env.reopen then (.error .IOError, t1)
    else (.ok (), { t1 with file := some (DataMap.encode t1.map) })

end Table

theorem I64.decode_eof_spec {bs : List Nat} {s s' : DecodeStats} {rest : List Nat}
    (h : I64.decode_stats bs s = (.error .EOF, rest, s')) :
    bs = [] ∧ rest = [] ∧ s' = s := by
  match bs with
  | [] =>
    simp only [I64.decode_stats, Prod.mk.injEq] at h
    exact ⟨rfl, h.2.1.symm, h.2.2.symm⟩
  | b :: r =>
    unfold I64.decode_stats at h
    dsimp only at h
    by_cases c1 : byteToI8 b > -0x7F
    · simp only [if_pos c1] at h
      simp at h
    · simp only [if_neg c1] at h
      by_cases c2 : b = 0x81
      · simp only [if_pos c2] at h
        match r with
        | [] => simp at h
        | [b1] => simp at h
        | b1 :: b2 :: r2 => simp at h
      · simp only [if_neg c2] at h
        match r with
        | [] => simp at h
        | [b1] => simp at h
        | [b1, b2] => simp at h
        | [b1, b2, b3] => simp at h
        | [b1, b2, b3, b4] => simp at h
        | [b1, b2, b3, b4, b5] => simp at h
        | [b1, b2, b3, b4, b5, b6] => simp at h
        | [b1, b2, b3, b4, b5, b6, b7] => simp at h
        | b1 :: b2 :: b3 :: b4 :: b5 :: b6 :: b7 :: b8 :: r2 => simp at h

theorem DataMap.decodeLoop_fuel :
    ∀ (N : Nat) (src : List Nat), src.length ≤ N →
      ∀ (f1 f2 : Nat) (data : DataMap) (s : DecodeStats),
        src.length < f1 → src.length < f2 →
        DataMap.decodeLoop f1 src data s = DataMap.decodeLoop f2 src data s := by
  intro N
  induction N with
  | zero =>
    intro src hle f1 f2 data s h1 h2
    have hsrc : src = [] := List.eq_nil_of_length_eq_zero (by omega)
    subst hsrc
    obtain ⟨a, rfl⟩ : ∃ a, f1 = a + 1 := ⟨f1 - 1, by omega⟩
    obtain ⟨b, rfl⟩ : ∃ b, f2 = b + 1 := ⟨f2 - 1, by omega⟩
    simp [DataMap.decodeLoop, I64.decode_stats]
  | succ N ih =>
    intro src hle f1 f2 data s h1 h2
    obtain ⟨a, rfl⟩ : ∃ a, f1 = a + 1 := ⟨f1 - 1, by omega⟩
    obtain ⟨b, rfl⟩ : ∃ b, f2 = b + 1 := ⟨f2 - 1, by omega⟩
    simp only [DataMap.decodeLoop]
    rcases hk : I64.decode_stats src s with ⟨rk, rest, s1⟩
    match rk with
    | .error .EOF => rfl
    | .error .IOError => rfl
    | .error .Null => rfl
    | .error .PartialRead => rfl
    | .ok key =>
      dsimp only
      obtain ⟨hkl, -⟩ := I64.i64_decode_ok_spec hk
      rcases hb : Bytes.decode_stats rest s1 with ⟨rb, rest2, s2⟩
      match rb with
      | .error .EOF => rfl
      | .error .IOError => rfl
      | .error .PartialRead => rfl
      | .error .Null =>
        dsimp only
        obtain ⟨hbl, -⟩ := Bytes.bytes_decode_null_spec hb
        cases hget : DataMap.get data key with
        | some value => exact ih rest2 (by omega) a b _ _ (by omega) (by omega)
        | none => exact ih rest2 (by omega) a b _ _ (by omega) (by omega)
      | .ok value =>
        dsimp only
        obtain ⟨hbl, -⟩ := Bytes.bytes_decode_ok_spec hb
        cases hget : DataMap.get data key with
        | some old => exact ih rest2 (by omega) a b _ _ (by omega) (by omega)
        | none => exact ih rest2 (by omega) a b _ _ (by omega) (by omega)

theorem DataMap.decodeLoop_append :
    ∀ (N : Nat) (bs : List Nat), bs.length ≤ N →
      ∀ (ext : List Nat) (data m : DataMap) (s s₂ : DecodeStats) (f F F₂ : Nat),
        bs.length < f → (bs ++ ext).length < F → ext.length < F₂ →
        DataMap.decodeLoop f bs data s = (.ok m, s₂) →
        DataMap.decodeLoop F (bs ++ ext) data s = DataMap.decodeLoop F₂ ext m s₂ := by
  intro N
  induction N with
  | zero =>
    intro bs hle ext data m s s₂ f F F₂ hf hF hF₂ h
    have hbs : bs = [] := List.eq_nil_of_length_eq_zero (by omega)
    subst hbs
    obtain ⟨a, rfl⟩ : ∃ a, f = a + 1 := ⟨f - 1, by omega⟩
    simp only [DataMap.decodeLoop, I64.decode_stats] at h
    simp only [Prod.mk.injEq, Except.ok.injEq] at h
    obtain ⟨rfl, rfl⟩ := h
    simp only [List.nil_append] at hF ⊢
    exact DataMap.decodeLoop_fuel ext.length ext le_rfl F F₂ _ _ hF hF₂
  | succ N ih =>
    intro bs hle ext data m s s₂ f F F₂ hf hF hF₂ h
    obtain ⟨a, rfl⟩ : ∃ a, f = a + 1 := ⟨f - 1, by omega⟩
    obtain ⟨A, rfl⟩ : ∃ A, F = A + 1 := ⟨F - 1, by omega⟩
    simp only [DataMap.decodeLoop] at h
    rcases hk : I64.decode_stats bs s with ⟨rk, rest, s1⟩
    rw [hk] at h
    match rk with
    | .error .EOF =>
      dsimp only at h
      obtain ⟨rfl, rfl, rfl⟩ := I64.decode_eof_spec hk
      simp only [Prod.mk.injEq, Except.ok.injEq] at h
      obtain ⟨rfl, rfl⟩ := h
      simp only [List.nil_append] at hF ⊢
      exact DataMap.decodeLoop_fuel ext.length ext le_rfl (A + 1) F₂ _ _ hF hF₂
    | .error .IOError => simp at h
    | .error .Null => simp at h
    | .error .PartialRead => simp at h
    | .ok key =>
      dsimp only at h
      obtain ⟨hkl, hkapp⟩ := I64.i64_decode_ok_spec hk
      simp only [DataMap.decodeLoop]
      rw [hkapp ext]
      dsimp only
      rcases hb : Bytes.decode_stats rest s1 with ⟨rb, rest2, s2⟩
      rw [hb] at h
      match rb with
      | .error .EOF => simp at h
      | .error .IOError => simp at h
      | .error .PartialRead => simp at h
      | .error .Null =>
        dsimp only at h
        obtain ⟨hbl, hbapp⟩ := Bytes.bytes_decode_null_spec hb
        rw [hbapp ext]
        dsimp only
        cases hget : DataMap.get data key with
        | some value =>
          rw [hget] at h
          dsimp only at h ⊢
          exact ih rest2 (by omega) ext _ m _ s₂ a A F₂ (by omega)
            (by simp only [List.length_append] at hF ⊢; omega) hF₂ h
        | none =>
          rw [hget] at h
          dsimp only at h ⊢
          exact ih rest2 (by omega) ext _ m _ s₂ a A F₂ (by omega)
            (by simp only [List.length_append] at hF ⊢; omega) hF₂ h
      | .ok value =>
        dsimp only at h
        obtain ⟨hbl, hbapp⟩ := Bytes.bytes_decode_ok_spec hb
        rw [hbapp ext]
        dsimp only
        cases hget : DataMap.get data key with
        | some old =>
          rw [hget] at h
          dsimp only at h ⊢
          exact ih rest2 (by omega) ext _ m _ s₂ a A F₂ (by omega)
            (by simp only [List.length_append] at hF ⊢; omega) hF₂ h
        | none =>
          rw [hget] at h
          dsimp only at h ⊢
          exact ih rest2 (by omega) ext _ m _ s₂ a A F₂ (by omega)
            (by simp only [List.length_append] at hF ⊢; omega) hF₂ h

theorem DataMap.remove_eq_of_get_none {m : DataMap} {k : Int}
    (h : DataMap.get m k = none) : DataMap.remove m k = m := by
  induction m with
  | nil => rfl
  | cons p t ih =>
    obtain ⟨k', v'⟩ := p
    unfold DataMap.get at h
    unfold DataMap.remove
    by_cases hk : k = k'
    · simp only [if_pos hk] at h
      simp at h
    · simp only [if_neg hk] at h ⊢
      rw [ih h]

theorem I64.encode_length_pos (k : Int) : 1 ≤ (I64.encode k).length := by
  unfold I64.encode
  split
  · simp
  · split <;> simp

theorem DataMap.decodeLoop_nil (data : DataMap) (s : DecodeStats) (A : Nat) (hA : 0 < A) :
    DataMap.decodeLoop A [] data s = (.ok data, s) := by
  obtain ⟨B, rfl⟩ : ∃ B, A = B + 1 := ⟨A - 1, by omega⟩
  simp [DataMap.decodeLoop, I64.decode_stats]

theorem DataMap.decodeLoop_ins_record (k : Int) (hk1 : -2^63 ≤ k) (hk2 : k < 2^63)
    (v : List Nat) (hv : v.length < 2^64) (data : DataMap) (s : DecodeStats) (F : Nat)
    (hF : (I64.encode k ++ Bytes.encode v).length < F) :
    ∃ s', DataMap.decodeLoop F (I64.encode k ++ Bytes.encode v) data s =
      (.ok (DataMap.insert data k v), s') := by
  obtain ⟨A, rfl⟩ : ∃ A, F = A + 1 := ⟨F - 1, by omega⟩
  simp only [DataMap.decodeLoop]
  rw [I64.i64_decode_encode k hk1 hk2 (Bytes.encode v) s]
  dsimp only
  have hb := Bytes.bytes_decode_encode v hv [] { s with read := s.read + (I64.encode k).length }
  rw [List.append_nil] at hb
  rw [hb]
  dsimp only
  have hA : 0 < A := by
    have := I64.encode_length_pos k
    simp only [List.length_append] at hF
    omega
  cases hget : DataMap.get data k with
  | some old => exact ⟨_, DataMap.decodeLoop_nil _ _ A hA⟩
  | none => exact ⟨_, DataMap.decodeLoop_nil _ _ A hA⟩

theorem DataMap.decodeLoop_rem_record (k : Int) (hk1 : -2^63 ≤ k) (hk2 : k < 2^63)
    (data : DataMap) (s : DecodeStats) (F : Nat)
    (hF : (I64.encode k ++ [0xFF]).length < F) :
    ∃ s', DataMap.decodeLoop F (I64.encode k ++ [0xFF]) data s =
      (.ok (DataMap.remove data k), s') := by
  obtain ⟨A, rfl⟩ : ∃ A, F = A + 1 := ⟨F - 1, by omega⟩
  simp only [DataMap.decodeLoop]
  rw [I64.i64_decode_encode k hk1 hk2 [0xFF] s]
  dsimp only
  have hb : Bytes.decode_stats [0xFF] { s with read := s.read + (I64.encode k).length } =
      (.error .Null, [],
       { s with read := s.read + (I64.encode k).length + 1 }) := by
    simp [Bytes.decode_stats, U64.decode_stats]
  rw [hb]
  dsimp only
  have hA : 0 < A := by
    have := I64.encode_length_pos k
    simp only [List.length_append] at hF
    omega
  cases hget : DataMap.get data k with
  | some old => exact ⟨_, DataMap.decodeLoop_nil _ _ A hA⟩
  | none =>
    rw [DataMap.remove_eq_of_get_none hget]
    exact ⟨_, DataMap.decodeLoop_nil _ _ A hA⟩

/-- A mutation of the table: Table::insert or Table::remove. -/
inductive Op where
  | ins (key : Int) (value : List Nat)
  | rem (key : Int)

/-- Keys fit in i64 and value lengths fit in u64, the machine-integer ranges
of the source. -/
def OpValid : Op → Prop
  | .ins k v => -2^63 ≤ k ∧ k < 2^63 ∧ v.length < 2^64
  | .rem k => -2^63 ≤ k ∧ k < 2^63

/-- Run a sequence of mutations on a table, threading the updated table. -/
def Table.runOps (t : Table) : List Op → Table
  | [] => t
  | .ins k v :: ops => Table.runOps (Table.insert t k v).2 ops
  | .rem k :: ops => Table.runOps (Table.remove t k).2 ops

theorem Table.runOps_invariant (ops : List Op) :
    ∀ (t : Table) (fc : List Nat), t.file = some fc →
      (∀ op ∈ ops, OpValid op) →
      (∃ s', DataMap.decode_stats fc ⟨0, 0⟩ = (.ok t.map, s')) →
      ∃ fc' s'', (Table.runOps t ops).file = some fc' ∧
        DataMap.decode_stats fc' ⟨0, 0⟩ = (.ok (Table.runOps t ops).map, s'') := by
  induction ops with
  | nil =>
    intro t fc hfile _ ⟨s', hdec⟩
    exact ⟨fc, s', hfile, hdec⟩
  | cons op ops ih =>
    intro t fc hfile hops ⟨s', hdec⟩
    match op with
    | .ins k v =>
      have hval := hops (.ins k v) (by simp)
      unfold OpValid at hval
      obtain ⟨hk1, hk2, hv⟩ := hval
      have hstep : Table.runOps t (.ins k v :: ops) =
          Table.runOps (Table.insert t k v).2 ops := rfl
      have hins : (Table.insert t k v).2 =
          { file := some (fc ++ I64.encode k ++ Bytes.encode v),
            map := DataMap.insert t.map k v } := by
        unfold Table.insert
        rw [hfile]
      rw [hstep, hins]
      apply ih _ (fc ++ I64.encode k ++ Bytes.encode v) rfl
        (fun o ho => hops o (by simp [ho]))
      -- decoding the appended log yields the updated index
      obtain ⟨s₃, hrec⟩ := DataMap.decodeLoop_ins_record k hk1 hk2 v hv t.map s'
        ((I64.encode k ++ Bytes.encode v).length + 1) (by omega)
      refine ⟨s₃, ?_⟩
      unfold DataMap.decode_stats at hdec ⊢
      rw [List.append_assoc]
      rw [DataMap.decodeLoop_append fc.length fc le_rfl
        (I64.encode k ++ Bytes.encode v) [] t.map ⟨0, 0⟩ s' (fc.length + 1)
        ((fc ++ (I64.encode k ++ Bytes.encode v)).length + 1)
        ((I64.encode k ++ Bytes.encode v).length + 1)
        (by omega) (by omega) (by omega) hdec]
      exact hrec
    | .rem k =>
      have hval := hops (.rem k) (by simp)
      unfold OpValid at hval
      obtain ⟨hk1, hk2⟩ := hval
      have hstep : Table.runOps t (.rem k :: ops) =
          Table.runOps (Table.remove t k).2 ops := rfl
      have hrem : (Table.remove t k).2 =
          { file := some (fc ++ I64.encode k ++ OptU64.encode none),
            map := DataMap.remove t.map k } := by
        unfold Table.remove
        rw [hfile]
      rw [hstep, hrem]
      apply ih _ (fc ++ I64.encode k ++ OptU64.encode none) rfl
        (fun o ho => hops o (by simp [ho]))
      obtain ⟨s₃, hrec⟩ := DataMap.decodeLoop_rem_record k hk1 hk2 t.map s'
        ((I64.encode k ++ [0xFF]).length + 1) (by omega)
      refine ⟨s₃, ?_⟩
      unfold DataMap.decode_stats at hdec ⊢
      have hnone : OptU64.encode none = [0xFF] := rfl
      rw [hnone, List.append_assoc]
      have h1 := DataMap.decodeLoop_append fc.length fc le_rfl
        (I64.encode k ++ [0xFF]) [] t.map ⟨0, 0⟩ s' (fc.length + 1)
        ((fc ++ (I64.encode k ++ [0xFF])).length + 1)
        ((I64.encode k ++ [0xFF]).length + 1)
        (by omega) (by omega) (by omega) hdec
      rw [h1]
      exact hrec

/-- C1: replay equivalence.  For any table obtained from open_rw and any
sequence of successful insert and remove operations, the in-memory index
after the operations is exactly what the map decoder produces from the
resulting log file, so re-opening the file yields the same key-to-value
mapping. -/
theorem c1_replay_equivalence (fc : List Nat) (ops : List Op) (t0 : Table)
    (hopen : Table.open_rw fc = .ok t0) (hops : ∀ op ∈ ops, OpValid op) :
    ∃ fc' s', (Table.runOps t0 ops).file = some fc' ∧
      DataMap.decode_stats fc' ⟨0, 0⟩ = (.ok (Table.runOps t0 ops).map, s') ∧
      Table.open_rw fc' = .ok { file := some fc', map := (Table.runOps t0 ops).map } := by
  unfold Table.open_rw at hopen
  rcases hd : DataMap.decode_stats fc ⟨0, 0⟩ with ⟨res, s0⟩
  rw [hd] at hopen
  match res with
  | .error e => simp at hopen
  | .ok m =>
    dsimp only at hopen
    have ht0 : t0 = { file := some fc, map := m } := by
      have := hopen
      simp only [Except.ok.injEq] at this
      exact this.symm
    subst ht0
    obtain ⟨fc', s'', hfile, hdec⟩ := Table.runOps_invariant ops
      { file := some fc, map := m } fc rfl hops ⟨s0, hd⟩
    refine ⟨fc', s'', hfile, hdec, ?_⟩
    unfold Table.open_rw
    rw [hdec]

theorem c1_replay_equivalence_witness :
    ∃ fc' s',
      (Table.runOps { file := some [], map := [] }
          [Op.ins 5 [84, 111, 109], Op.rem 5]).file = some fc' ∧
      DataMap.decode_stats fc' ⟨0, 0⟩ =
        (.ok (Table.runOps { file := some [], map := [] }
            [Op.ins 5 [84, 111, 109], Op.rem 5]).map, s') ∧
      Table.open_rw fc' =
        .ok { file := some fc',
              map := (Table.runOps { file := some [], map := [] }
                  [Op.ins 5 [84, 111, 109], Op.rem 5]).map } := by
  apply c1_replay_equivalence [] [Op.ins 5 [84, 111, 109], Op.rem 5]
    { file := some [], map := [] } (by rfl)
  intro op hop
  simp only [List.mem_cons, List.not_mem_nil, or_false] at hop
  rcases hop with rfl | rfl
  · exact ⟨by norm_num, by norm_num, by norm_num⟩
  · exact ⟨by norm_num, by norm_num⟩

theorem DataMap.get_none_of_forall_lt {m : DataMap} {k : Int}
    (h : ∀ p ∈ m, p.1 < k) : DataMap.get m k = none := by
  induction m with
  | nil => rfl
  | cons p t ih =>
    obtain ⟨k', v'⟩ := p
    unfold DataMap.get
    have hk : k' < k := h (k', v') (by simp)
    rw [if_neg (by omega)]
    exact ih (fun q hq => h q (by simp [hq]))

theorem DataMap.insert_append_of_forall_lt {m : DataMap} {k : Int} {v : List Nat}
    (h : ∀ p ∈ m, p.1 < k) : DataMap.insert m k v = m ++ [(k, v)] := by
  induction m with
  | nil => rfl
  | cons p t ih =>
    obtain ⟨k', v'⟩ := p
    unfold DataMap.insert
    have hk : k' < k := h (k', v') (by simp)
    rw [if_neg (by omega), if_neg (by omega)]
    rw [ih (fun q hq => h q (by simp [hq]))]
    simp

theorem DataMap.decodeLoop_encode (m : DataMap) :
    ∀ (acc : DataMap) (s : DecodeStats) (F : Nat),
      DataMap.Sorted m →
      (∀ p ∈ m, -2^63 ≤ p.1 ∧ p.1 < 2^63 ∧ p.2.length < 2^64) →
      (∀ p ∈ acc, ∀ q ∈ m, p.1 < q.1) →
      (DataMap.encode m).length < F →
      DataMap.decodeLoop F (DataMap.encode m) acc s =
        (.ok (acc ++ m), { s with read := s.read + (DataMap.encode m).length }) := by
  induction m with
  | nil =>
    intro acc s F _ _ _ hF
    unfold DataMap.encode at hF ⊢
    rw [DataMap.decodeLoop_nil acc s F (by omega)]
    simp
  | cons p t ih =>
    intro acc s F hsort hval hlt hF
    obtain ⟨k, v⟩ := p
    obtain ⟨hk1, hk2, hv⟩ := hval (k, v) (by simp)
    obtain ⟨A, rfl⟩ : ∃ A, F = A + 1 := ⟨F - 1, by omega⟩
    have henc : DataMap.encode ((k, v) :: t) =
        I64.encode k ++ (Bytes.encode v ++ DataMap.encode t) := by
      rw [← List.append_assoc]
      rfl
    rw [henc] at hF ⊢
    simp only [DataMap.decodeLoop]
    rw [I64.i64_decode_encode k hk1 hk2 (Bytes.encode v ++ DataMap.encode t) s]
    dsimp only
    rw [Bytes.bytes_decode_encode v hv (DataMap.encode t)
      { s with read := s.read + (I64.encode k).length }]
    dsimp only
    have hget : DataMap.get acc k = none :=
      DataMap.get_none_of_forall_lt (fun p hp => hlt p hp (k, v) (by simp))
    rw [hget]
    dsimp only
    have hins : DataMap.insert acc k v = acc ++ [(k, v)] :=
      DataMap.insert_append_of_forall_lt (fun p hp => hlt p hp (k, v) (by simp))
    rw [hins]
    have hsort' : DataMap.Sorted t := (List.pairwise_cons.mp hsort).2
    have hkt : ∀ q ∈ t, k < q.1 := fun q hq => (List.pairwise_cons.mp hsort).1 q hq
    have hlt' : ∀ p ∈ acc ++ [(k, v)], ∀ q ∈ t, p.1 < q.1 := by
      intro p hp q hq
      rcases List.mem_append.mp hp with hp1 | hp2
      · exact lt_trans (hlt p hp1 (k, v) (by simp)) (hkt q hq)
      · simp only [List.mem_singleton] at hp2
        subst hp2
        exact hkt q hq
    have hrec := ih (acc ++ [(k, v)])
      { s with read := s.read + (I64.encode k).length + (Bytes.encode v).length }
      A hsort' (fun q hq => hval q (by simp [hq])) hlt'
      (by have := I64.encode_length_pos k
          simp only [List.length_append] at hF ⊢
          omega)
    rw [hrec]
    simp only [List.append_assoc, List.singleton_append, List.length_append,
      Prod.mk.injEq, Except.ok.injEq, DecodeStats.mk.injEq]
    refine ⟨trivial, by omega, trivial⟩

/-- C6: compaction canonicalizes the log.  A successful compact leaves the
index unchanged and makes the file at path exactly the concatenation, in
ascending key order, of encode(k) ++ encode(v) over the in-memory index
(DataMap.encode of the sorted index); re-opening that file succeeds with the
same index and discarded = 0. -/
theorem c6_compact_canonicalizes (env : Table.CompactEnv) (t t' : Table)
    (hc : Table.compact env t = (.ok (), t'))
    (hsort : DataMap.Sorted t.map)
    (hval : ∀ p ∈ t.map, -2^63 ≤ p.1 ∧ p.1 < 2^63 ∧ p.2.length < 2^64) :
    t'.map = t.map ∧
    t'.file = some (DataMap.encode t.map) ∧
    DataMap.decode_stats (DataMap.encode t.map) ⟨0, 0⟩ =
      (.ok t.map, { read := (DataMap.encode t.map).length, discarded := 0 }) ∧
    Table.open_rw (DataMap.encode t.map) =
      .ok { file := some (DataMap.encode t.map), map := t.map } := by
  have hdec : DataMap.decode_stats (DataMap.encode t.map) ⟨0, 0⟩ =
      (.ok t.map, { read := (DataMap.encode t.map).length, discarded := 0 }) := by
    unfold DataMap.decode_stats
    have h := DataMap.decodeLoop_encode t.map [] ⟨0, 0⟩ ((DataMap.encode t.map).length + 1)
      hsort hval (by simp) (by omega)
    simpa using h
  unfold Table.compact at hc
  rcases hf : t.file with _ | fc
  · rw [hf] at hc
    simp at hc
  · rw [hf] at hc
    dsimp only at hc
    split at hc
    · simp at hc
    · split at hc
      · simp at hc
      · split at hc
        · simp at hc
        · split at hc
          · simp at hc
          · simp only [Prod.mk.injEq] at hc
            obtain ⟨-, rfl⟩ := hc
            refine ⟨rfl, rfl, hdec, ?_⟩
            unfold Table.open_rw
            rw [hdec]

theorem c6_compact_canonicalizes_witness :
    ({ file := some (DataMap.encode [(6, [98])]), map := [(6, [98])] } : Table).map
        = [(6, [98])] ∧
    ({ file := some (DataMap.encode [(6, [98])]), map := [(6, [98])] } : Table).file
        = some (DataMap.encode [(6, [98])]) ∧
    DataMap.decode_stats (DataMap.encode ([(6, [98])] : DataMap)) ⟨0, 0⟩ =
      (.ok [(6, [98])], { read := (DataMap.encode ([(6, [98])] : DataMap)).length,
                          discarded := 0 }) ∧
    Table.open_rw (DataMap.encode ([(6, [98])] : DataMap)) =
      .ok { file := some (DataMap.encode [(6, [98])]), map := [(6, [98])] } := by
  apply c6_compact_canonicalizes ⟨true, true, true, true⟩
    { file := some [], map := [(6, [98])] }
  · rfl
  · unfold DataMap.Sorted
    decide
  · decide

/-- C9: a failed compaction disables writing.  Compact drops the handle
before any fallible step, so whenever it returns an IOError the table keeps
its index but has no handle, and every subsequent insert, remove or compact
fails with NotWritable leaving the table unchanged. -/
theorem c9_failed_compact_disables_writes (env : Table.CompactEnv) (t t' : Table)
    (hc : Table.compact env t = (.error .IOError, t')) :
    t'.file = none ∧ t'.map = t.map ∧
    (∀ k v, Table.insert t' k v = (.error .NotWritable, t')) ∧
    (∀ k, Table.remove t' k = (.error .NotWritable, t')) ∧
    (∀ env2, Table.compact env2 t' = (.error .NotWritable, t')) := by
  unfold Table.compact at hc
  rcases hf : t.file with _ | fc
  · rw [hf] at hc
    simp at hc
  · rw [hf] at hc
    dsimp only at hc
    have ht' : t' = { t with file := none } := by
      split at hc
      · simp only [Prod.mk.injEq] at hc
        exact hc.2.symm
      · split at hc
        · simp only [Prod.mk.injEq] at hc
          exact hc.2.symm
        · split at hc
          · simp only [Prod.mk.injEq] at hc
            exact hc.2.symm
          · split at hc
            · simp only [Prod.mk.injEq] at hc
              exact hc.2.symm
            · simp at hc
    subst ht'
    exact ⟨rfl, rfl, fun k v => rfl, fun k => rfl, fun env2 => rfl⟩

theorem c9_failed_compact_disables_writes_witness :
    ({ file := none, map := [] } : Table).file = none ∧
    ({ file := none, map := [] } : Table).map = ({ file := some [], map := [] } : Table).map ∧
    (∀ k v, Table.insert { file := none, map := [] } k v =
      (.error .NotWritable, { file := none, map := [] })) ∧
    (∀ k, Table.remove { file := none, map := [] } k =
      (.error .NotWritable, { file := none, map := [] })) ∧
    (∀ env2, Table.compact env2 { file := none, map := [] } =
      (.error .NotWritable, { file := none, map := [] })) :=
  c9_failed_compact_disables_writes ⟨false, true, true, true⟩
    { file := some [], map := [] } { file := none, map := [] } rfl

theorem U64.decode_0xFD_short (rest : List Nat) (hr : rest.length < 2) (s : DecodeStats) :
    U64.decode_stats (0xFD :: rest) s = (.error .PartialRead, [],
      { read := s.read + 1 + rest.length, discarded := s.discarded + rest.length }) := by
  unfold U64.decode_stats
  dsimp only
  rw [if_neg (by decide), if_pos rfl]
  split
  · simp only [List.length_cons] at hr
    omega
  · rfl

theorem U64.decode_0xFE_short (rest : List Nat) (hr : rest.length < 8) (s : DecodeStats) :
    U64.decode_stats (0xFE :: rest) s = (.error .PartialRead, [],
      { read := s.read + 1 + rest.length, discarded := s.discarded + rest.length }) := by
  unfold U64.decode_stats
  dsimp only
  rw [if_neg (by decide), if_neg (by decide), if_pos rfl]
  split
  · simp only [List.length_cons] at hr
    omega
  · rfl

theorem I64.decode_0x81_short (rest : List Nat) (hr : rest.length < 2) (s : DecodeStats) :
    I64.decode_stats (0x81 :: rest) s = (.error .PartialRead, [],
      { read := s.read + 1 + rest.length, discarded := s.discarded + rest.length }) := by
  unfold I64.decode_stats
  dsimp only
  rw [if_neg (by decide), if_pos rfl]
  split
  · simp only [List.length_cons] at hr
    omega
  · rfl

theorem I64.decode_0x80_short (rest : List Nat) (hr : rest.length < 8) (s : DecodeStats) :
    I64.decode_stats (0x80 :: rest) s = (.error .PartialRead, [],
      { read := s.read + 1 + rest.length, discarded := s.discarded + rest.length }) := by
  unfold I64.decode_stats
  dsimp only
  rw [if_neg (by decide), if_neg (by decide)]
  split
  · simp only [List.length_cons] at hr
    omega
  · rfl

theorem U64.u64_decode_proper_partial {n : Nat} {p q : List Nat}
    (hpq : p ++ q = U64.encode n) (hp : p ≠ []) (hq : q ≠ []) (s : DecodeStats) :
    ∃ s', U64.decode_stats p s = (.error .PartialRead, [], s') := by
  have hpl : 0 < p.length := List.length_pos.mpr hp
  have hql : 0 < q.length := List.length_pos.mpr hq
  rcases p with _ | ⟨x, p'⟩
  · exact absurd rfl hp
  by_cases h1 : n < 0xFD
  · exfalso
    rw [U64.encode, if_pos h1] at hpq
    have := congrArg List.length hpq
    simp only [List.cons_append, List.length_cons, List.length_append,
      List.length_nil] at this
    omega
  · by_cases h2 : n < 0x10000
    · rw [U64.encode, if_neg h1, if_pos h2] at hpq
      simp only [List.cons_append, List.cons.injEq] at hpq
      obtain ⟨rfl, hpq⟩ := hpq
      have hlen : p'.length < 2 := by
        have := congrArg List.length hpq
        simp only [List.length_append, List.length_cons, List.length_nil] at this
        omega
      exact ⟨_, U64.decode_0xFD_short p' hlen s⟩
    · rw [U64.encode, if_neg h1, if_neg h2] at hpq
      simp only [List.cons_append, List.cons.injEq] at hpq
      obtain ⟨rfl, hpq⟩ := hpq
      have hlen : p'.length < 8 := by
        have := congrArg List.length hpq
        simp only [List.length_append, List.length_cons, List.length_nil] at this
        omega
      exact ⟨_, U64.decode_0xFE_short p' hlen s⟩

theorem I64.i64_decode_proper_partial {k : Int} {p q : List Nat}
    (hpq : p ++ q = I64.encode k) (hp : p ≠ []) (hq : q ≠ []) (s : DecodeStats) :
    ∃ s', I64.decode_stats p s = (.error .PartialRead, [], s') := by
  have hpl : 0 < p.length := List.length_pos.mpr hp
  have hql : 0 < q.length := List.length_pos.mpr hq
  rcases p with _ | ⟨x, p'⟩
  · exact absurd rfl hp
  by_cases h1 : -0x7F < k ∧ k < 0x80
  · exfalso
    rw [I64.encode, if_pos h1] at hpq
    have := congrArg List.length hpq
    simp only [List.cons_append, List.length_cons, List.length_append,
      List.length_nil] at this
    omega
  · by_cases h2 : -0x8000 ≤ k ∧ k < 0x8000
    · rw [I64.encode, if_neg h1, if_pos h2] at hpq
      simp only [List.cons_append, List.cons.injEq] at hpq
      obtain ⟨rfl, hpq⟩ := hpq
      have hlen : p'.length < 2 := by
        have := congrArg List.length hpq
        simp only [List.length_append, List.length_cons, List.length_nil] at this
        omega
      exact ⟨_, I64.decode_0x81_short p' hlen s⟩
    · rw [I64.encode, if_neg h1, if_neg h2] at hpq
      simp only [List.cons_append, List.cons.injEq] at hpq
      obtain ⟨rfl, hpq⟩ := hpq
      have hlen : p'.length < 8 := by
        have := congrArg List.length hpq
        simp only [List.length_append, List.length_cons, List.length_nil] at this
        omega
      exact ⟨_, I64.decode_0x80_short p' hlen s⟩

theorem Bytes.decode_nil (s : DecodeStats) :
    Bytes.decode_stats [] s = (.error .EOF, [], s) := rfl

theorem Bytes.bytes_decode_proper_partial {v : List Nat} (hv : v.length < 2^64)
    {p q : List Nat} (hpq : p ++ q = Bytes.encode v) (hp : p ≠ []) (hq : q ≠ [])
    (s : DecodeStats) :
    ∃ rest' s', Bytes.decode_stats p s = (.error .PartialRead, rest', s') := by
  unfold Bytes.encode at hpq
  rcases List.append_eq_append_iff.mp hpq with ⟨w, hc, hb⟩ | ⟨w, ha, hd⟩
  · rcases w with _ | ⟨y, w'⟩
    · rw [List.append_nil] at hc
      rw [List.nil_append] at hb
      subst hc
      unfold Bytes.decode_stats
      have hu := U64.u64_decode_encode v.length hv [] s
      rw [List.append_nil] at hu
      rw [hu]
      dsimp only
      have hvne : v.length ≠ 0 := by
        intro h0
        exact hq (hb.trans (List.eq_nil_of_length_eq_zero h0))
      rw [if_neg (by simp only [List.take_nil, List.length_nil]; omega)]
      exact ⟨_, _, rfl⟩
    · obtain ⟨s', hu⟩ := U64.u64_decode_proper_partial hc.symm hp (by simp) s
      unfold Bytes.decode_stats
      rw [hu]
      exact ⟨_, _, rfl⟩
  · subst ha
    unfold Bytes.decode_stats
    rw [U64.u64_decode_encode v.length hv w s]
    dsimp only
    have hwv : w.length < v.length := by
      have := congrArg List.length hd
      simp only [List.length_append] at this
      have := List.length_pos.mpr hq
      omega
    have htake : w.take v.length = w := List.take_of_length_le (by omega)
    rw [if_neg (by rw [htake]; omega)]
    exact ⟨_, _, rfl⟩

/-- Key of a record, whether insert or tombstone. -/
def Op.key : Op → Int
  | .ins k _ => k
  | .rem k => k

/-- Bytes of one on-disk record, from table.rs: encode(key) then either the
byte-string value (insert) or the 0xFF None tombstone (remove). -/
def recordBytes : Op → List Nat
  | .ins k v => I64.encode k ++ Bytes.encode v
  | .rem k => I64.encode k ++ OptU64.encode none

/-- Concatenation of complete records, the well-formed on-disk log format. -/
def recordsBytes : List Op → List Nat
  | [] => []
  | r :: rs => recordBytes r ++ recordsBytes rs

/-- Replay of records into a map, last writer wins; this is both what the
in-memory side of Table::insert / Table::remove computes and what the
DataMap decoder reconstructs. -/
def DataMap.replay (m : DataMap) : List Op → DataMap
  | [] => m
  | .ins k v :: rs => DataMap.replay (DataMap.insert m k v) rs
  | .rem k :: rs => DataMap.replay (DataMap.remove m k) rs

theorem DataMap.decodeLoop_records (rs : List Op) :
    ∀ (data : DataMap) (s : DecodeStats) (F : Nat),
      (∀ r ∈ rs, OpValid r) → (recordsBytes rs).length < F →
      ∃ s', DataMap.decodeLoop F (recordsBytes rs) data s =
        (.ok (DataMap.replay data rs), s') := by
  induction rs with
  | nil =>
    intro data s F _ hF
    exact ⟨s, DataMap.decodeLoop_nil data s F (by unfold recordsBytes at hF; omega)⟩
  | cons r rs ih =>
    intro data s F hval hF
    have hsh : recordsBytes (r :: rs) = recordBytes r ++ recordsBytes rs := rfl
    have hF' : (recordBytes r ++ recordsBytes rs).length < F := hsh ▸ hF
    match r with
    | .ins k v =>
      obtain ⟨hk1, hk2, hv⟩ : OpValid (.ins k v) := hval _ (by simp)
      obtain ⟨s1, hrec⟩ := DataMap.decodeLoop_ins_record k hk1 hk2 v hv data s
        ((I64.encode k ++ Bytes.encode v).length + 1) (by omega)
      have happ := DataMap.decodeLoop_append (recordBytes (.ins k v)).length
        (recordBytes (.ins k v)) le_rfl (recordsBytes rs) data
        (DataMap.insert data k v) s s1
        ((recordBytes (.ins k v)).length + 1) F ((recordsBytes rs).length + 1)
        (by omega) hF' (by omega) hrec
      obtain ⟨s2, htail⟩ := ih (DataMap.insert data k v) s1
        ((recordsBytes rs).length + 1) (fun o ho => hval o (by simp [ho]))
        (by omega)
      refine ⟨s2, ?_⟩
      have hshape : recordsBytes (Op.ins k v :: rs) =
          recordBytes (.ins k v) ++ recordsBytes rs := rfl
      rw [hshape, happ, htail]
      rfl
    | .rem k =>
      obtain ⟨hk1, hk2⟩ : OpValid (.rem k) := hval _ (by simp)
      obtain ⟨s1, hrec⟩ := DataMap.decodeLoop_rem_record k hk1 hk2 data s
        ((I64.encode k ++ [0xFF]).length + 1) (by omega)
      have hrb : recordBytes (.rem k) = I64.encode k ++ [0xFF] := rfl
      have happ := DataMap.decodeLoop_append (recordBytes (.rem k)).length
        (recordBytes (.rem k)) le_rfl (recordsBytes rs) data
        (DataMap.remove data k) s s1
        ((recordBytes (.rem k)).length + 1) F ((recordsBytes rs).length + 1)
        (by omega) hF' (by omega) (by rw [hrb]; exact hrec)
      obtain ⟨s2, htail⟩ := ih (DataMap.remove data k) s1
        ((recordsBytes rs).length + 1) (fun o ho => hval o (by simp [ho]))
        (by omega)
      refine ⟨s2, ?_⟩
      have hshape : recordsBytes (Op.rem k :: rs) =
          recordBytes (.rem k) ++ recordsBytes rs := rfl
      rw [hshape, happ, htail]
      rfl

theorem DataMap.decodeLoop_key_only (k : Int) (hk1 : -2^63 ≤ k) (hk2 : k < 2^63)
    (m : DataMap) (s : DecodeStats) (F : Nat) (hF : 0 < F) :
    DataMap.decodeLoop F (I64.encode k) m s =
      (.error .EOF, { s with read := s.read + (I64.encode k).length }) := by
  obtain ⟨A, rfl⟩ : ∃ A, F = A + 1 := ⟨F - 1, by omega⟩
  simp only [DataMap.decodeLoop]
  have hi := I64.i64_decode_encode k hk1 hk2 [] s
  rw [List.append_nil] at hi
  rw [hi]
  dsimp only
  rw [Bytes.decode_nil]

/-- C5 (amended): a log of complete records followed by a non-empty proper
prefix of a further record fails to load with a DecodeError whose kind is
EOF when the prefix is exactly the complete key encoding (the value is
missing entirely) and PartialRead otherwise (the prefix ends strictly inside
the key or value encoding); EOF reached exactly at a key boundary (no
trailing bytes) instead terminates the load successfully. -/
theorem c5_trailing_partial_record (rs : List Op) (hval : ∀ r ∈ rs, OpValid r)
    (r : Op) (hr : OpValid r) (p q : List Nat)
    (hpq : p ++ q = recordBytes r) (hp : p ≠ []) (hq : q ≠ []) :
    (∃ s', DataMap.decode_stats (recordsBytes rs ++ p) ⟨0, 0⟩ =
        (.error (if p = I64.encode r.key then .EOF else .PartialRead), s')) ∧
    Table.openRead (recordsBytes rs ++ p) =
      .error (.DecodeError (if p = I64.encode r.key then .EOF else .PartialRead)) ∧
    Table.open_rw (recordsBytes rs ++ p) =
      .error (.DecodeError (if p = I64.encode r.key then .EOF else .PartialRead)) ∧
    (∃ s'', DataMap.decode_stats (recordsBytes rs) ⟨0, 0⟩ =
        (.ok (DataMap.replay [] rs), s'')) := by
  obtain ⟨s0, hrecs⟩ := DataMap.decodeLoop_records rs [] ⟨0, 0⟩
    ((recordsBytes rs).length + 1) hval (by omega)
  have hmain : ∃ s', DataMap.decodeLoop (p.length + 1) p (DataMap.replay [] rs) s0 =
      (.error (if p = I64.encode r.key then .EOF else .PartialRead), s') := by
    match r with
    | .ins k v =>
      obtain ⟨hk1, hk2, hv⟩ : OpValid (.ins k v) := hr
      have hrb : recordBytes (.ins k v) = I64.encode k ++ Bytes.encode v := rfl
      rw [hrb] at hpq
      simp only [Op.key]
      rcases List.append_eq_append_iff.mp hpq with ⟨w, hc, hb⟩ | ⟨w, ha, hd⟩
      · rcases w with _ | ⟨y, w'⟩
        · rw [List.append_nil] at hc
          obtain rfl : p = I64.encode k := hc.symm
          rw [if_pos rfl]
          exact ⟨_, DataMap.decodeLoop_key_only k hk1 hk2 _ s0 _ (by omega)⟩
        · have hne : p ≠ I64.encode k := by
            intro he
            have hl := congrArg List.length hc
            rw [he] at hl
            simp only [List.length_append, List.length_cons] at hl
            omega
          rw [if_neg hne]
          obtain ⟨s1, hi⟩ := I64.i64_decode_proper_partial hc.symm hp (by simp) s0
          refine ⟨s1, ?_⟩
          simp only [DataMap.decodeLoop]
          rw [hi]
      · rcases w with _ | ⟨y, w'⟩
        · rw [List.append_nil] at ha
          obtain rfl : p = I64.encode k := ha
          rw [if_pos rfl]
          exact ⟨_, DataMap.decodeLoop_key_only k hk1 hk2 _ s0 _ (by omega)⟩
        · have hne : p ≠ I64.encode k := by
            intro he
            have hl := congrArg List.length ha
            rw [he] at hl
            simp only [List.length_append, List.length_cons] at hl
            omega
          rw [if_neg hne]
          subst ha
          simp only [DataMap.decodeLoop]
          rw [I64.i64_decode_encode k hk1 hk2 (y :: w') s0]
          dsimp only
          obtain ⟨rest', s2, hb2⟩ := Bytes.bytes_decode_proper_partial hv hd.symm
            (by simp) hq { s0 with read := s0.read + (I64.encode k).length }
          rw [hb2]
          exact ⟨s2, rfl⟩
    | .rem k =>
      obtain ⟨hk1, hk2⟩ : OpValid (.rem k) := hr
      have hrb : recordBytes (.rem k) = I64.encode k ++ [0xFF] := rfl
      rw [hrb] at hpq
      simp only [Op.key]
      rcases List.append_eq_append_iff.mp hpq with ⟨w, hc, hb⟩ | ⟨w, ha, hd⟩
      · rcases w with _ | ⟨y, w'⟩
        · rw [List.append_nil] at hc
          obtain rfl : p = I64.encode k := hc.symm
          rw [if_pos rfl]
          exact ⟨_, DataMap.decodeLoop_key_only k hk1 hk2 _ s0 _ (by omega)⟩
        · have hne : p ≠ I64.encode k := by
            intro he
            have hl := congrArg List.length hc
            rw [he] at hl
            simp only [List.length_append, List.length_cons] at hl
            omega
          rw [if_neg hne]
          obtain ⟨s1, hi⟩ := I64.i64_decode_proper_partial hc.symm hp (by simp) s0
          refine ⟨s1, ?_⟩
          simp only [DataMap.decodeLoop]
          rw [hi]
      · rcases w with _ | ⟨y, w'⟩
        · rw [List.append_nil] at ha
          obtain rfl : p = I64.encode k := ha
          rw [if_pos rfl]
          exact ⟨_, DataMap.decodeLoop_key_only k hk1 hk2 _ s0 _ (by omega)⟩
        · exfalso
          have hl := congrArg List.length hd
          have hql := List.length_pos.mpr hq
          simp only [List.length_append, List.length_cons, List.length_nil] at hl
          omega
  obtain ⟨s', hloop⟩ := hmain
  have hfull : DataMap.decode_stats (recordsBytes rs ++ p) ⟨0, 0⟩ =
      (.error (if p = I64.encode r.key then .EOF else .PartialRead), s') := by
    unfold DataMap.decode_stats
    have happ := DataMap.decodeLoop_append (recordsBytes rs).length (recordsBytes rs)
      le_rfl p [] (DataMap.replay [] rs) ⟨0, 0⟩ s0 ((recordsBytes rs).length + 1)
      ((recordsBytes rs ++ p).length + 1) (p.length + 1)
      (by omega) (by omega) (by omega) hrecs
    rw [happ]
    exact hloop
  refine ⟨⟨s', hfull⟩, ?_, ?_, ⟨s0, ?_⟩⟩
  · unfold Table.openRead
    rw [hfull]
  · unfold Table.open_rw
    rw [hfull]
  · unfold DataMap.decode_stats
    exact hrecs

theorem c5_trailing_partial_record_witness :
    (∃ s', DataMap.decode_stats (recordsBytes [] ++ [0x81]) ⟨0, 0⟩ =
        (.error (if [0x81] = I64.encode (Op.rem 320).key then .EOF else .PartialRead), s')) ∧
    Table.openRead (recordsBytes [] ++ [0x81]) =
      .error (.DecodeError (if [0x81] = I64.encode (Op.rem 320).key then .EOF
                            else .PartialRead)) ∧
    Table.open_rw (recordsBytes [] ++ [0x81]) =
      .error (.DecodeError (if [0x81] = I64.encode (Op.rem 320).key then .EOF
                            else .PartialRead)) ∧
    (∃ s'', DataMap.decode_stats (recordsBytes []) ⟨0, 0⟩ =
        (.ok (DataMap.replay [] []), s'')) := by
  apply c5_trailing_partial_record [] (by simp) (Op.rem 320)
    ⟨by norm_num, by norm_num⟩ [0x81] [0x01, 0x40, 0xFF] (by decide) (by decide) (by decide)

/-- C5 counterexample: the file consisting of the single byte 0x05 is a
non-empty proper prefix of the record for remove(5) (whose bytes are
[0x05, 0xFF]), yet loading it fails with EOF, not PartialRead, because the
prefix is a complete key whose value is missing entirely. -/
theorem c5_counterexample :
    [0x05] ++ [0xFF] = recordBytes (Op.rem 5) ∧ ([0x05] : List Nat) ≠ [] ∧
    ([0xFF] : List Nat) ≠ [] ∧
    Table.openRead [0x05] = .error (.DecodeError .EOF) ∧
    Table.open_rw [0x05] = .error (.DecodeError .EOF) ∧
    Table.openRead [0x05] ≠ .error (.DecodeError .PartialRead) ∧
    Table.open_rw [0x05] ≠ .error (.DecodeError .PartialRead) := by
  have h1 : Table.openRead [0x05] = .error (.DecodeError .EOF) := rfl
  have h2 : Table.open_rw [0x05] = .error (.DecodeError .EOF) := rfl
  refine ⟨rfl, by simp, by simp, h1, h2, ?_, ?_⟩
  · rw [h1]
    simp
  · rw [h2]
    simp

/-- IEEE-754 binary64 value, modelled by its bit fields: sign bit (true =
negative), 11-bit biased exponent, 52-bit mantissa.  Equality of F64 values
is bitwise equality of this representation. -/
structure F64 where
  sign : Bool
  bexp : Nat
  mant : Nat
  bexp_lt : bexp < 2048
  mant_lt : mant < 2 ^ 52

theorem F64.ext' {x y : F64} (h1 : x.sign = y.sign) (h2 : x.bexp = y.bexp)
    (h3 : x.mant = y.mant) : x = y := by
  cases x
  cases y
  simp_all

/-- NaN: all-ones exponent with a non-zero mantissa (f64::is_nan). -/
def F64.isNan (x : F64) : Prop := x.bexp = 2047 ∧ x.mant ≠ 0

instance (x : F64) : Decidable x.isNan :=
  inferInstanceAs (Decidable (_ ∧ _))

/-- The exact rational value of a finite F64 (only used when bexp < 2047):
subnormals are mant * 2^-1074, normals are (2^52 + mant) * 2^(bexp - 1075). -/
def F64.val (x : F64) : ℚ :=
  (if x.sign then -1 else 1) *
    (if x.bexp = 0 then (x.mant : ℚ) * (2 : ℚ) ^ (-1074 : ℤ)
     else ((2 ^ 52 + x.mant : ℕ) : ℚ) * (2 : ℚ) ^ ((x.bexp : ℤ) - 1075))

/-- Extended number line for the comparisons IEEE partial_cmp performs on
non-NaN doubles: minus infinity, a finite rational, plus infinity. -/
inductive XRat where
  | negInf
  | fin (q : ℚ)
  | posInf
deriving DecidableEq

/-- Three-way comparison on the extended line. -/
def XRat.cmp : XRat → XRat → Ordering
  | .negInf, .negInf => .eq
  | .negInf, .fin _ => .lt
  | .negInf, .posInf => .lt
  | .fin _, .negInf => .gt
  | .fin a, .fin b => if a < b then .lt else if a = b then .eq else .gt
  | .fin _, .posInf => .lt
  | .posInf, .negInf => .gt
  | .posInf, .fin _ => .gt
  | .posInf, .posInf => .eq

/-- The extended value of a non-NaN F64 (bexp = 2047 with zero mantissa is
an infinity of the given sign). -/
def F64.toX (x : F64) : XRat :=
  if x.bexp = 2047 then (if x.sign then .negInf else .posInf) else .fin x.val

/-- f64::abs on the extended line: both infinities map to +inf (only used on
non-NaN values). -/
def F64.absX (x : F64) : XRat :=
  if x.bexp = 2047 then .posInf else .fin |x.val|

/-- Truncation toward zero: the semantics of (x as i64) for in-range x. -/
def F64.trunc (x : F64) : Int :=
  if x.val < 0 then -(⌊-x.val⌋) else ⌊x.val⌋

/-- Three-way integer comparison, Ord::cmp on i64. -/
def icmp (a b : Int) : Ordering :=
  if a < b then .lt else if a = b then .eq else .gt

/-- cmp_if from cmp_fi.rs: ordering between an i64 and an f64.  The local
constants are f_resi = 1 << 53, f_resf = exp2(53) and int_lim = exp2(63),
written as the exact powers 2^53 and 2^63 (exp2 is exact on integer
arguments in this range).  In the first branch the guard makes (n as f64)
lossless, so its partial_cmp against x is the extended comparison of the
exact value of n; the float comparisons x.abs() < f_resf, x >= int_lim and
x < -int_lim are the corresponding extended comparisons, and (x as i64) is
truncation toward zero. -/
def cmp_if (n : Int) (x : F64) : Ordering :=
  if x.isNan then .gt
  else if -(2 ^ 53) < n ∧ n < 2 ^ 53 then XRat.cmp (.fin (n : ℚ)) x.toX
  else if XRat.cmp x.absX (.fin ((2 : ℚ) ^ 53)) = .lt then
    (if n > 0 then .gt else .lt)
  else if XRat.cmp x.toX (.fin ((2 : ℚ) ^ 63)) ≠ .lt then .lt
  else if XRat.cmp x.toX (.fin (-((2 : ℚ) ^ 63))) = .lt then .gt
  else icmp n x.trunc

/-- cmp_fi from cmp_fi.rs: ordering between an f64 and an i64, the mirror
image of cmp_if with the same constants and branch structure. -/
def cmp_fi (x : F64) (n : Int) : Ordering :=
  if x.isNan then .lt
  else if -(2 ^ 53) < n ∧ n < 2 ^ 53 then XRat.cmp x.toX (.fin (n : ℚ))
  else if XRat.cmp x.absX (.fin ((2 : ℚ) ^ 53)) = .lt then
    (if n > 0 then .lt else .gt)
  else if XRat.cmp x.toX (.fin ((2 : ℚ) ^ 63)) ≠ .lt then .gt
  else if XRat.cmp x.toX (.fin (-((2 : ℚ) ^ 63))) = .lt then .lt
  else icmp x.trunc n

/-- cmp_ff from cmp_fi.rs: total ordering on f64 treating NaN as smaller
than any number and equal to itself. -/
def cmp_ff (x y : F64) : Ordering :=
  if x.isNan then (if y.isNan then .eq else .lt)
  else if y.isNan then .gt
  else XRat.cmp x.toX y.toX

theorem XRat.cmp_fin_lt_iff {a b : ℚ} : XRat.cmp (.fin a) (.fin b) = .lt ↔ a < b := by
  show (if a < b then Ordering.lt else if a = b then Ordering.eq else Ordering.gt)
      = .lt ↔ a < b
  split
  · simpa
  · rename_i h1
    split
    · simp [h1]
    · simp [h1]

theorem XRat.cmp_fin_eq_iff {a b : ℚ} : XRat.cmp (.fin a) (.fin b) = .eq ↔ a = b := by
  show (if a < b then Ordering.lt else if a = b then Ordering.eq else Ordering.gt)
      = .eq ↔ a = b
  split
  · rename_i h1
    simp [ne_of_lt h1]
  · split
    · simpa
    · rename_i h1 h2
      simp [h2]

theorem XRat.cmp_fin_gt_iff {a b : ℚ} : XRat.cmp (.fin a) (.fin b) = .gt ↔ b < a := by
  show (if a < b then Ordering.lt else if a = b then Ordering.eq else Ordering.gt)
      = .gt ↔ b < a
  split
  · rename_i h1
    simp [asymm h1]
  · rename_i h1
    split
    · rename_i h2
      subst h2
      simp [lt_irrefl]
    · rename_i h2
      simp [lt_of_le_of_ne (not_lt.mp h1) (Ne.symm h2)]

theorem XRat.cmp_swap (a b : XRat) : (XRat.cmp a b).swap = XRat.cmp b a := by
  cases a <;> cases b <;> try rfl
  rename_i q1 q2
  show (if q1 < q2 then Ordering.lt else if q1 = q2 then Ordering.eq
        else Ordering.gt).swap =
    (if q2 < q1 then Ordering.lt else if q2 = q1 then Ordering.eq else Ordering.gt)
  rcases lt_trichotomy q1 q2 with h | h | h
  · rw [if_pos h, if_neg (asymm h), if_neg (ne_of_lt h).symm]
    rfl
  · subst h
    rw [if_neg (lt_irrefl _), if_pos rfl]
    rfl
  · rw [if_neg (asymm h), if_neg (ne_of_lt h).symm, if_pos h]
    rfl

theorem icmp_eq_xcmp_cast (a b : Int) :
    icmp a b = XRat.cmp (.fin (a : ℚ)) (.fin (b : ℚ)) := by
  unfold icmp
  show _ = (if (a : ℚ) < (b : ℚ) then Ordering.lt
            else if (a : ℚ) = (b : ℚ) then Ordering.eq else Ordering.gt)
  rcases lt_trichotomy a b with h | h | h
  · rw [if_pos h, if_pos (show (a : ℚ) < b by exact_mod_cast h)]
  · subst h
    rw [if_neg (lt_irrefl (a : ℚ)), if_pos (rfl : (a : ℚ) = a),
      if_neg (lt_irrefl a), if_pos rfl]
  · rw [if_neg (asymm h), if_neg (ne_of_lt h).symm,
      if_neg (show ¬(a : ℚ) < b by exact_mod_cast asymm h),
      if_neg (show ¬(a : ℚ) = b from by exact_mod_cast (ne_of_lt h).symm)]

theorem icmp_swap (a b : Int) : (icmp a b).swap = icmp b a := by
  unfold icmp
  rcases lt_trichotomy a b with h | h | h
  · rw [if_pos h, if_neg (asymm h), if_neg (ne_of_gt h)]
    rfl
  · subst h
    rw [if_neg (lt_irrefl _), if_pos rfl]
    rfl
  · rw [if_neg (asymm h), if_neg (ne_of_lt h).symm, if_pos h]
    rfl

theorem F64.abs_val_eq (x : F64) :
    |x.val| = (if x.bexp = 0 then (x.mant : ℚ) * (2 : ℚ) ^ (-1074 : ℤ)
               else ((2 ^ 52 + x.mant : ℕ) : ℚ) * (2 : ℚ) ^ ((x.bexp : ℤ) - 1075)) := by
  unfold F64.val
  rcases hs : x.sign with _ | _
  · rw [if_neg (by simp)]
    rw [one_mul, abs_of_nonneg]
    split <;> positivity
  · rw [if_pos rfl, neg_one_mul, abs_neg, abs_of_nonneg]
    split <;> positivity

theorem F64.abs_val_lt_of_bexp_zero {x : F64} (h : x.bexp = 0) :
    |x.val| < (2 : ℚ) ^ (53 : ℕ) := by
  rw [F64.abs_val_eq, if_pos h]
  have h1 : (x.mant : ℚ) * (2 : ℚ) ^ (-1074 : ℤ) <
      (2 : ℚ) ^ (52 : ℤ) * (2 : ℚ) ^ (-1074 : ℤ) := by
    apply mul_lt_mul_of_pos_right _ (by positivity)
    have := x.mant_lt
    calc (x.mant : ℚ) < ((2 ^ 52 : ℕ) : ℚ) := by exact_mod_cast this
    _ = (2 : ℚ) ^ (52 : ℤ) := by push_cast; norm_num
  calc (x.mant : ℚ) * (2 : ℚ) ^ (-1074 : ℤ) <
      (2 : ℚ) ^ (52 : ℤ) * (2 : ℚ) ^ (-1074 : ℤ) := h1
  _ = (2 : ℚ) ^ (-1022 : ℤ) := by
      rw [← zpow_add₀ (by norm_num : (2 : ℚ) ≠ 0)]
      norm_num
  _ < (2 : ℚ) ^ (53 : ℤ) := zpow_lt_zpow_right₀ (by norm_num) (by norm_num)
  _ = (2 : ℚ) ^ (53 : ℕ) := by
      rw [← zpow_natCast]
      norm_num

theorem F64.abs_val_lt_pow (x : F64) (hb : x.bexp ≠ 0) :
    |x.val| < (2 : ℚ) ^ ((x.bexp : ℤ) - 1022) := by
  rw [F64.abs_val_eq, if_neg hb]
  have h1 : ((2 ^ 52 + x.mant : ℕ) : ℚ) < (2 : ℚ) ^ (53 : ℤ) := by
    have := x.mant_lt
    have h2 : (2 ^ 52 + x.mant : ℕ) < 2 ^ 53 := by omega
    calc ((2 ^ 52 + x.mant : ℕ) : ℚ) < ((2 ^ 53 : ℕ) : ℚ) := by exact_mod_cast h2
    _ = (2 : ℚ) ^ (53 : ℤ) := by push_cast; norm_num
  calc ((2 ^ 52 + x.mant : ℕ) : ℚ) * (2 : ℚ) ^ ((x.bexp : ℤ) - 1075) <
      (2 : ℚ) ^ (53 : ℤ) * (2 : ℚ) ^ ((x.bexp : ℤ) - 1075) :=
        mul_lt_mul_of_pos_right h1 (by positivity)
  _ = (2 : ℚ) ^ ((x.bexp : ℤ) - 1022) := by
      rw [← zpow_add₀ (by norm_num : (2 : ℚ) ≠ 0)]
      congr 1
      omega

theorem F64.bexp_large_of_abs_ge {x : F64}
    (h53 : ¬ |x.val| < (2 : ℚ) ^ (53 : ℕ)) : 1076 ≤ x.bexp := by
  by_cases hb : x.bexp = 0
  · exact absurd (F64.abs_val_lt_of_bexp_zero hb) h53
  · have h1 := F64.abs_val_lt_pow x hb
    have h2 : (2 : ℚ) ^ (53 : ℤ) < (2 : ℚ) ^ ((x.bexp : ℤ) - 1022) := by
      calc (2 : ℚ) ^ (53 : ℤ) = (2 : ℚ) ^ (53 : ℕ) := by
            rw [← zpow_natCast]
            norm_num
      _ ≤ |x.val| := not_lt.mp h53
      _ < (2 : ℚ) ^ ((x.bexp : ℤ) - 1022) := h1
    have h3 : (53 : ℤ) < (x.bexp : ℤ) - 1022 :=
      (zpow_lt_zpow_iff_right₀ (by norm_num)).mp h2
    omega

theorem F64.val_int_of_bexp_large {x : F64} (h : 1076 ≤ x.bexp) :
    ∃ z : ℤ, x.val = (z : ℚ) ∧ x.trunc = z := by
  have hb0 : x.bexp ≠ 0 := by omega
  have hexp : ((x.bexp : ℤ) - 1075) = ((x.bexp - 1075 : ℕ) : ℤ) := by omega
  have hpow : (2 : ℚ) ^ ((x.bexp : ℤ) - 1075) = ((2 ^ (x.bexp - 1075) : ℕ) : ℚ) := by
    rw [hexp]
    push_cast
    rw [zpow_natCast]
  have hmag : ((2 ^ 52 + x.mant : ℕ) : ℚ) * (2 : ℚ) ^ ((x.bexp : ℤ) - 1075) =
      (((2 ^ 52 + x.mant) * 2 ^ (x.bexp - 1075) : ℕ) : ℚ) := by
    rw [hpow]
    push_cast
    ring
  have hcast : ((((2 ^ 52 + x.mant) * 2 ^ (x.bexp - 1075) : ℕ) : ℚ)) =
      ((((2 ^ 52 + x.mant) * 2 ^ (x.bexp - 1075) : ℕ) : ℤ) : ℚ) := by
    push_cast
    ring
  rcases hs : x.sign with _ | _
  · have hval : x.val = (((2 ^ 52 + x.mant) * 2 ^ (x.bexp - 1075) : ℕ) : ℚ) := by
      unfold F64.val
      rw [hs, if_neg (by simp), if_neg hb0, one_mul, hmag]
    refine ⟨(((2 ^ 52 + x.mant) * 2 ^ (x.bexp - 1075) : ℕ) : ℤ),
      by rw [hval, hcast], ?_⟩
    unfold F64.trunc
    rw [hval, if_neg (not_lt.mpr (by positivity)), hcast, Int.floor_intCast]
  · have hval : x.val = -((((2 ^ 52 + x.mant) * 2 ^ (x.bexp - 1075) : ℕ) : ℚ)) := by
      unfold F64.val
      rw [hs, if_pos rfl, if_neg hb0, neg_one_mul, hmag]
    refine ⟨-(((2 ^ 52 + x.mant) * 2 ^ (x.bexp - 1075) : ℕ) : ℤ),
      by rw [hval, hcast]; push_cast; ring, ?_⟩
    unfold F64.trunc
    have hpos : (0 : ℚ) < (((2 ^ 52 + x.mant) * 2 ^ (x.bexp - 1075) : ℕ) : ℚ) := by
      have : 0 < ((2 ^ 52 + x.mant) * 2 ^ (x.bexp - 1075) : ℕ) := by positivity
      exact_mod_cast this
    rw [hval, if_pos (by linarith), neg_neg, hcast, Int.floor_intCast]

theorem cmp_if_spec (n : Int) (x : F64) (h1 : -2^63 ≤ n) (h2 : n < 2^63)
    (hnan : ¬x.isNan) :
    cmp_if n x = XRat.cmp (.fin (n : ℚ)) x.toX := by
  have hpow53 : ((2 ^ 53 : ℤ) : ℚ) = (2 : ℚ) ^ (53 : ℕ) := by push_cast; ring
  have hpow63 : ((2 ^ 63 : ℤ) : ℚ) = (2 : ℚ) ^ (63 : ℕ) := by push_cast; ring
  unfold cmp_if
  rw [if_neg hnan]
  by_cases hr : -(2 ^ 53) < n ∧ n < 2 ^ 53
  · rw [if_pos hr]
  · rw [if_neg hr]
    have hn53 : n ≤ -(2 ^ 53) ∨ 2 ^ 53 ≤ n := by omega
    by_cases c2 : XRat.cmp x.absX (.fin ((2 : ℚ) ^ 53)) = .lt
    · rw [if_pos c2]
      by_cases hb : x.bexp = 2047
      · exfalso
        unfold F64.absX at c2
        rw [if_pos hb] at c2
        exact absurd c2 (by simp [XRat.cmp])
      · unfold F64.absX at c2
        rw [if_neg hb] at c2
        have habs : |x.val| < (2 : ℚ) ^ (53 : ℕ) := XRat.cmp_fin_lt_iff.mp c2
        unfold F64.toX
        rw [if_neg hb]
        rcases hn53 with hneg | hpos
        · rw [if_neg (by omega)]
          symm
          rw [XRat.cmp_fin_lt_iff]
          calc (n : ℚ) ≤ ((-(2 ^ 53) : ℤ) : ℚ) := by exact_mod_cast hneg
          _ = -((2 : ℚ) ^ (53 : ℕ)) := by push_cast; ring
          _ < x.val := by
              have h3 := (abs_lt.mp habs).1
              linarith
        · rw [if_pos (by omega)]
          symm
          rw [XRat.cmp_fin_gt_iff]
          calc x.val < (2 : ℚ) ^ (53 : ℕ) := (abs_lt.mp habs).2
          _ = ((2 ^ 53 : ℤ) : ℚ) := hpow53.symm
          _ ≤ (n : ℚ) := by exact_mod_cast hpos
    · rw [if_neg c2]
      by_cases c3 : XRat.cmp x.toX (.fin ((2 : ℚ) ^ 63)) ≠ .lt
      · rw [if_pos c3]
        by_cases hb : x.bexp = 2047
        · unfold F64.toX at c3 ⊢
          rw [if_pos hb] at c3 ⊢
          by_cases hs : x.sign = true
          · rw [if_pos hs] at c3
            exact absurd rfl c3
          · rw [if_neg hs]
            rfl
        · unfold F64.toX at c3 ⊢
          rw [if_neg hb] at c3 ⊢
          have hge : (2 : ℚ) ^ (63 : ℕ) ≤ x.val := by
            by_contra hlt
            exact c3 (XRat.cmp_fin_lt_iff.mpr (not_le.mp hlt))
          symm
          rw [XRat.cmp_fin_lt_iff]
          calc (n : ℚ) < ((2 ^ 63 : ℤ) : ℚ) := by exact_mod_cast h2
          _ = (2 : ℚ) ^ (63 : ℕ) := hpow63
          _ ≤ x.val := hge
      · rw [if_neg c3]
        push_neg at c3
        by_cases c4 : XRat.cmp x.toX (.fin (-((2 : ℚ) ^ 63))) = .lt
        · rw [if_pos c4]
          by_cases hb : x.bexp = 2047
          · unfold F64.toX at c3 ⊢
            rw [if_pos hb] at c3 ⊢
            by_cases hs : x.sign = true
            · rw [if_pos hs]
              rfl
            · rw [if_neg hs] at c3
              simp [XRat.cmp] at c3
          · unfold F64.toX at c4 ⊢
            rw [if_neg hb] at c4 ⊢
            have hlt : x.val < -((2 : ℚ) ^ (63 : ℕ)) := XRat.cmp_fin_lt_iff.mp c4
            symm
            rw [XRat.cmp_fin_gt_iff]
            calc x.val < -((2 : ℚ) ^ (63 : ℕ)) := hlt
            _ = ((-(2 ^ 63) : ℤ) : ℚ) := by push_cast; ring
            _ ≤ (n : ℚ) := by exact_mod_cast h1
        · rw [if_neg c4]
          by_cases hb : x.bexp = 2047
          · exfalso
            unfold F64.toX at c3 c4
            rw [if_pos hb] at c3 c4
            by_cases hs : x.sign = true
            · rw [if_pos hs] at c4
              exact c4 rfl
            · rw [if_neg hs] at c3
              simp [XRat.cmp] at c3
          · unfold F64.absX at c2
            rw [if_neg hb] at c2
            have h53 : ¬ |x.val| < (2 : ℚ) ^ (53 : ℕ) := fun hlt =>
              c2 (XRat.cmp_fin_lt_iff.mpr hlt)
            obtain ⟨z, hvz, htz⟩ :=
              F64.val_int_of_bexp_large (F64.bexp_large_of_abs_ge h53)
            unfold F64.toX
            rw [if_neg hb, htz, hvz]
            exact icmp_eq_xcmp_cast n z

theorem cmp_fi_eq_swap (x : F64) (n : Int) : cmp_fi x n = (cmp_if n x).swap := by
  unfold cmp_if cmp_fi
  by_cases h0 : x.isNan
  · rw [if_pos h0, if_pos h0]
    rfl
  · rw [if_neg h0, if_neg h0]
    by_cases hr : -(2 ^ 53) < n ∧ n < 2 ^ 53
    · rw [if_pos hr, if_pos hr, ← XRat.cmp_swap]
    · rw [if_neg hr, if_neg hr]
      by_cases c2 : XRat.cmp x.absX (.fin ((2 : ℚ) ^ 53)) = .lt
      · rw [if_pos c2, if_pos c2]
        by_cases h3 : n > 0
        · rw [if_pos h3, if_pos h3]
          rfl
        · rw [if_neg h3, if_neg h3]
          rfl
      · rw [if_neg c2, if_neg c2]
        by_cases c3 : XRat.cmp x.toX (.fin ((2 : ℚ) ^ 63)) ≠ .lt
        · rw [if_pos c3, if_pos c3]
          rfl
        · rw [if_neg c3, if_neg c3]
          by_cases c4 : XRat.cmp x.toX (.fin (-((2 : ℚ) ^ 63))) = .lt
          · rw [if_pos c4, if_pos c4]
            rfl
          · rw [if_neg c4, if_neg c4]
            exact (icmp_swap n x.trunc).symm

/-- C7: exact integer/float comparison.  If x is NaN then cmp_if(n, x) is
Greater and cmp_fi(x, n) is Less; otherwise cmp_if(n, x) is the comparison
of the exact mathematical values of n and x on the extended number line (no
rounding affects the result), and cmp_fi(x, n) is always its reverse. -/
theorem c7_cmp_exact (n : Int) (x : F64) (h1 : -2^63 ≤ n) (h2 : n < 2^63) :
    (x.isNan → cmp_if n x = .gt ∧ cmp_fi x n = .lt) ∧
    (¬x.isNan → cmp_if n x = XRat.cmp (.fin (n : ℚ)) x.toX) ∧
    cmp_fi x n = (cmp_if n x).swap := by
  refine ⟨fun hn => ⟨?_, ?_⟩, fun hn => cmp_if_spec n x h1 h2 hn,
    cmp_fi_eq_swap x n⟩
  · unfold cmp_if
    rw [if_pos hn]
  · unfold cmp_fi
    rw [if_pos hn]

theorem c7_cmp_exact_witness :
    ((⟨false, 2047, 1, by norm_num, by norm_num⟩ : F64).isNan →
      cmp_if 0 ⟨false, 2047, 1, by norm_num, by norm_num⟩ = .gt ∧
      cmp_fi ⟨false, 2047, 1, by norm_num, by norm_num⟩ 0 = .lt) ∧
    (¬(⟨false, 2047, 1, by norm_num, by norm_num⟩ : F64).isNan →
      cmp_if 0 ⟨false, 2047, 1, by norm_num, by norm_num⟩ =
        XRat.cmp (.fin ((0 : Int) : ℚ))
          (⟨false, 2047, 1, by norm_num, by norm_num⟩ : F64).toX) ∧
    cmp_fi ⟨false, 2047, 1, by norm_num, by norm_num⟩ 0 =
      (cmp_if 0 ⟨false, 2047, 1, by norm_num, by norm_num⟩).swap :=
  c7_cmp_exact 0 ⟨false, 2047, 1, by norm_num, by norm_num⟩
    (by norm_num) (by norm_num)

/-- JSON value tree from json.rs.  Strings are modelled as character lists
(Rust String comparison is UTF-8 byte order, which equals code-point order),
Binary as byte lists, Object as its key/value pairs in iteration (sorted)
order. -/
inductive JSON where
  | Null
  | Bool (b : Bool)
  | Int (n : Int)
  | Float (x : F64)
  | Binary (v : List Nat)
  | String (s : List Char)
  | Array (a : List JSON)
  | Object (m : List (List Char × JSON))
  | Infinity

/-- json_typeid from json.rs: Int and Float share tag 2 so that they
interleave numerically. -/
def json_typeid : JSON → Nat
  | .Null => 0
  | .Bool _ => 1
  | .Int _ => 2
  | .Float _ => 2
  | .Binary _ => 3
  | .String _ => 4
  | .Array _ => 5
  | .Object _ => 6
  | .Infinity => 7

/-- Three-way comparison on Nat (Ord::cmp on u8). -/
def ncmp (a b : Nat) : Ordering := if a < b then .lt else if a = b then .eq else .gt

/-- Ord::cmp on bool: false < true. -/
def bcmp : Bool → Bool → Ordering
  | false, false => .eq
  | false, true => .lt
  | true, false => .gt
  | true, true => .eq

/-- Ord::cmp on char, by code point. -/
def ccmp (a b : Char) : Ordering := ncmp a.toNat b.toNat

/-- Lexicographic list comparison (Rust slice/Vec/String Ord): elementwise,
ties broken by length. -/
def lexCmp {α : Type} (cmp : α → α → Ordering) : List α → List α → Ordering
  | [], [] => .eq
  | [], _ :: _ => .lt
  | _ :: _, [] => .gt
  | x :: xs, y :: ys =>
    match cmp x y with
    | .eq => lexCmp cmp xs ys
    | o => o

mutual

/-- Ord::cmp for JSON from json.rs: compare the variant tags first, then
dispatch on the variant pair.  The source's unreachable!() arms (distinct
variants whose tags compare equal, other than the Int/Float mix) are given
the arbitrary value .eq; they are indeed unreachable. -/
def jcmp : JSON → JSON → Ordering
  | a, b =>
    match ncmp (json_typeid a) (json_typeid b) with
    | .lt => .lt
    | .gt => .gt
    | .eq =>
      match a, b with
      | .Null, _ => .eq
      | .Bool x, .Bool y => bcmp x y
      | .Int n, .Int m => icmp n m
      | .Int n, .Float x => cmp_if n x
      | .Float x, .Int n => cmp_fi x n
      | .Float x, .Float y => cmp_ff x y
      | .Binary v, .Binary w => lexCmp ncmp v w
      | .String s, .String t => lexCmp ccmp s t
      | .Array u, .Array v => jcmpList u v
      | .Object u, .Object v => jcmpPairs u v
      | .Infinity, _ => .eq
      | _, _ => .eq

/-- Lexicographic comparison of JSON arrays (Vec<JSON> Ord). -/
def jcmpList : List JSON → List JSON → Ordering
  | [], [] => .eq
  | [], _ :: _ => .lt
  | _ :: _, [] => .gt
  | a :: t1, b :: t2 =>
    match jcmp a b with
    | .eq => jcmpList t1 t2
    | o => o

/-- Lexicographic comparison of sorted (key, value) pairs (BTreeMap Ord). -/
def jcmpPairs : List (List Char × JSON) → List (List Char × JSON) → Ordering
  | [], [] => .eq
  | [], _ :: _ => .lt
  | _ :: _, [] => .gt
  | (k1, v1) :: t1, (k2, v2) :: t2 =>
    match lexCmp ccmp k1 k2 with
    | .eq =>
      match jcmp v1 v2 with
      | .eq => jcmpPairs t1 t2
      | o => o
    | o => o

end

/-- PartialEq for JSON from json.rs: equality is cmp returning Equal. -/
def json_eq (a b : JSON) : Bool := jcmp a b == Ordering.eq

/-- The double +0.0. -/
def f64PosZero : F64 := ⟨false, 0, 0, by norm_num, by norm_num⟩

/-- The double -0.0. -/
def f64NegZero : F64 := ⟨true, 0, 0, by norm_num, by norm_num⟩

/-- C10: JSON equality is coarser than structural equality.  Since PartialEq
is defined as cmp returning Equal: Int(n) == Float(x) whenever the non-NaN
x denotes exactly the value n; any two NaN floats are equal; +0.0 == -0.0;
and any two Null (resp. Infinity) values are equal. -/
theorem c10_json_eq_coarse :
    (∀ (n : Int) (x : F64), -2^63 ≤ n → n < 2^63 → ¬x.isNan →
      x.toX = .fin (n : ℚ) → json_eq (.Int n) (.Float x) = true) ∧
    (∀ x y : F64, x.isNan → y.isNan → json_eq (.Float x) (.Float y) = true) ∧
    json_eq (.Float f64PosZero) (.Float f64NegZero) = true ∧
    json_eq .Null .Null = true ∧
    json_eq .Infinity .Infinity = true := by
  refine ⟨?_, ?_, ?_, rfl, rfl⟩
  · intro n x h1 h2 hnan hx
    have hj : jcmp (.Int n) (.Float x) = cmp_if n x := rfl
    have hcmp : cmp_if n x = .eq := by
      rw [cmp_if_spec n x h1 h2 hnan, hx]
      exact XRat.cmp_fin_eq_iff.mpr rfl
    unfold json_eq
    rw [hj, hcmp]
    rfl
  · intro x y hx hy
    have hj : jcmp (.Float x) (.Float y) = cmp_ff x y := rfl
    have hcmp : cmp_ff x y = .eq := by
      unfold cmp_ff
      rw [if_pos hx, if_pos hy]
    unfold json_eq
    rw [hj, hcmp]
    rfl
  · unfold json_eq
    have hj : jcmp (.Float f64PosZero) (.Float f64NegZero) = cmp_ff f64PosZero f64NegZero :=
      rfl
    rw [hj]
    have hv1 : f64PosZero.val = 0 := by
      unfold F64.val f64PosZero
      norm_num
    have hv2 : f64NegZero.val = 0 := by
      unfold F64.val f64NegZero
      norm_num
    have hcmp : cmp_ff f64PosZero f64NegZero = .eq := by
      unfold cmp_ff F64.toX
      rw [if_neg (by decide), if_neg (by decide), if_neg (by decide), if_neg (by decide),
        hv1, hv2]
      exact XRat.cmp_fin_eq_iff.mpr rfl
    rw [hcmp]
    rfl

theorem c10_json_eq_coarse_witness :
    json_eq (.Int 1) (.Float ⟨false, 1023, 0, by norm_num, by norm_num⟩) = true ∧
    json_eq (.Float ⟨false, 2047, 1, by norm_num, by norm_num⟩)
      (.Float ⟨true, 2047, 2, by norm_num, by norm_num⟩) = true ∧
    json_eq (.Float f64PosZero) (.Float f64NegZero) = true ∧
    json_eq .Null .Null = true ∧
    json_eq .Infinity .Infinity = true := by
  refine ⟨?_, ?_, c10_json_eq_coarse.2.2.1, c10_json_eq_coarse.2.2.2.1,
    c10_json_eq_coarse.2.2.2.2⟩
  · apply c10_json_eq_coarse.1 1 ⟨false, 1023, 0, by norm_num, by norm_num⟩
      (by norm_num) (by norm_num) (by decide)
    unfold F64.toX
    rw [if_neg (by decide)]
    have hval : (⟨false, 1023, 0, by norm_num, by norm_num⟩ : F64).val = 1 := by
      unfold F64.val
      norm_num
    rw [hval]
    norm_num
  · exact c10_json_eq_coarse.2.1 ⟨false, 2047, 1, by norm_num, by norm_num⟩
      ⟨true, 2047, 2, by norm_num, by norm_num⟩ (by decide) (by decide)

/-- f64_to_parts from f64_conv.rs, with its floating-point steps replaced by
the exact arithmetic they compute.  classify() dispatches on NaN / infinity
/ zero / subnormal-or-normal; signum is the sign of the sign bit (also for
zeros).  The source computes exp = n.log2().floor() and then corrects it
down by one when the float log2 had too little precision; the correction
makes exp exactly the greatest e with 2^e <= n, which is Int.log 2 n.  The
scalings n / exp2(expf), normn - 1 and exp2(52) * frac are exact in binary64
for every representable input, and (.. as u64) truncates the non-negative
frac, which Int.floor computes. -/
def f64_to_parts (x : F64) : Int × Nat × Nat :=
  if x.isNan then (1, 0x7FF, 2 ^ 51)
  else if x.bexp = 2047 then (if x.sign then -1 else 1, 0x7FF, 0)
  else if x.bexp = 0 ∧ x.mant = 0 then (if x.sign then -1 else 1, 0, 0)
  else
    let sign : Int := if x.sign then -1 else 1
    let n : ℚ := |x.val|
    let exp : Int := Int.log 2 n
    let expf : Int := if exp < -1022 then -1022 else exp
    let bexp : Nat := if exp < -1022 then 0 else (exp + 1023).toNat
    let normn : ℚ := n / (2 : ℚ) ^ expf
    let frac : ℚ := if bexp > 0 then normn - 1 else normn
    let mant : Nat := (⌊(2 : ℚ) ^ (52 : ℕ) * frac⌋).toNat
    (sign, bexp, mant)

/-- f64_from_parts from f64_conv.rs.  For bexp = 0x7FF it returns f64::NAN
(whose bit pattern is the canonical quiet NaN) or the signed infinity; for
bexp = 0 and mant = 0 the signed zero.  Otherwise it computes
(frac [+ 1]) * 2^expf * sign in floating point; for bexp < 0x7FF and
mant < 2^52 (always the case for input unpacked from 8 bytes) that
arithmetic is exact and yields precisely the double with representation
(sign < 0, bexp, mant).  Other inputs cannot arise from f64_from_bytes and
are mapped to +0.0 for totality. -/
def f64_from_parts (sign : Int) (bexp : Nat) (mant : Nat) : F64 :=
  if bexp = 0x7FF then
    if mant > 0 then ⟨false, 2047, 2 ^ 51, by norm_num, by norm_num⟩
    else if sign > 0 then ⟨false, 2047, 0, by norm_num, by norm_num⟩
    else ⟨true, 2047, 0, by norm_num, by norm_num⟩
  else if bexp = 0 ∧ mant = 0 then
    (if sign > 0 then f64PosZero else f64NegZero)
  else if h : bexp < 2048 ∧ mant < 2 ^ 52 then
    ⟨decide (sign < 0), bexp, mant, h.1, h.2⟩
  else f64PosZero

/-- f64_to_bytes from f64_conv.rs: pack sign, biased exponent and mantissa
into 8 big-endian bytes; shifts and masks written as division and modulus. -/
def f64_to_bytes (x : F64) : List Nat :=
  match f64_to_parts x with
  | (sign, bexp, mant) =>
    [(if sign < 0 then bexp + 0x800 else bexp) / 2 ^ 4,
     bexp * 2 ^ 4 % 256 + mant / 2 ^ 48,
     mant / 2 ^ 40 % 256, mant / 2 ^ 32 % 256, mant / 2 ^ 24 % 256,
     mant / 2 ^ 16 % 256, mant / 2 ^ 8 % 256, mant % 256]

/-- f64_from_bytes from f64_conv.rs: unpack the 8-byte layout and rebuild
the double via f64_from_parts.  The source panics on fewer than 8 bytes;
that case cannot arise from f64_to_bytes output and is mapped to +0.0. -/
def f64_from_bytes (v : List Nat) : F64 :=
  match v with
  | b0 :: b1 :: b2 :: b3 :: b4 :: b5 :: b6 :: b7 :: _ =>
    let sign : Int := if b0 / 128 % 2 = 1 then -1 else 1
    let bexp : Nat := (b0 % 128) * 2 ^ 4 + b1 / 2 ^ 4
    let mant : Nat :=
      ((((((b1 % 16) * 256 + b2) * 256 + b3) * 256 + b4) * 256 + b5) * 256 + b6)
        * 256 + b7
    f64_from_parts sign bexp mant
  | _ => f64PosZero

theorem f64_to_parts_finite {x : F64} (hb : x.bexp ≠ 2047)
    (hnz : ¬(x.bexp = 0 ∧ x.mant = 0)) :
    f64_to_parts x = (if x.sign then -1 else 1, x.bexp, x.mant) := by
  have h2 : (2 : ℚ) ≠ 0 := by norm_num
  have hnan : ¬x.isNan := fun h => hb h.1
  unfold f64_to_parts
  rw [if_neg hnan, if_neg hb, if_neg hnz]
  dsimp only
  by_cases h0 : x.bexp = 0
  · have hm : x.mant ≠ 0 := fun h => hnz ⟨h0, h⟩
    have hmpos : (0 : ℚ) < (x.mant : ℚ) := by exact_mod_cast Nat.pos_of_ne_zero hm
    have hn : |x.val| = (x.mant : ℚ) * (2 : ℚ) ^ (-1074 : ℤ) := by
      rw [F64.abs_val_eq, if_pos h0]
    have hpos : (0 : ℚ) < |x.val| := by
      rw [hn]
      exact mul_pos hmpos (by positivity)
    have hmlt : (x.mant : ℚ) < (2 : ℚ) ^ (52 : ℤ) := by
      calc (x.mant : ℚ) < ((2 ^ 52 : ℕ) : ℚ) := by exact_mod_cast x.mant_lt
      _ = (2 : ℚ) ^ (52 : ℤ) := by push_cast; norm_num
    have hlt : |x.val| < ((2 : ℕ) : ℚ) ^ (-1022 : ℤ) := by
      rw [hn]
      have step : (x.mant : ℚ) * (2 : ℚ) ^ (-1074 : ℤ) <
          (2 : ℚ) ^ (52 : ℤ) * (2 : ℚ) ^ (-1074 : ℤ) :=
        mul_lt_mul_of_pos_right hmlt (by positivity)
      calc (x.mant : ℚ) * (2 : ℚ) ^ (-1074 : ℤ) <
          (2 : ℚ) ^ (52 : ℤ) * (2 : ℚ) ^ (-1074 : ℤ) := step
      _ = ((2 : ℕ) : ℚ) ^ (-1022 : ℤ) := by
          rw [← zpow_add₀ h2]
          norm_num
    have hlog : Int.log 2 |x.val| < -1022 :=
      (Int.lt_zpow_iff_log_lt (by norm_num) hpos).mp hlt
    rw [if_pos hlog, if_pos hlog, if_neg (lt_irrefl 0)]
    have hscale : (2 : ℚ) ^ (52 : ℕ) * (|x.val| / (2 : ℚ) ^ (-1022 : ℤ)) =
        (x.mant : ℚ) := by
      rw [hn]
      have e1 : (2 : ℚ) ^ ((52 : ℕ) : ℤ) * (2 : ℚ) ^ (1022 : ℤ) =
          (2 : ℚ) ^ (1074 : ℤ) := by
        rw [← zpow_add₀ h2]
        norm_num
      field_simp
      linear_combination (x.mant : ℚ) * e1
    rw [hscale, Int.floor_natCast, Int.toNat_natCast, h0]
  · have h1le : 1 ≤ x.bexp := Nat.pos_of_ne_zero h0
    have hn : |x.val| = ((2 ^ 52 + x.mant : ℕ) : ℚ) * (2 : ℚ) ^ ((x.bexp : ℤ) - 1075) := by
      rw [F64.abs_val_eq, if_neg h0]
    have hpos : (0 : ℚ) < |x.val| := by
      rw [hn]
      have : (0 : ℚ) < ((2 ^ 52 + x.mant : ℕ) : ℚ) := by
        exact_mod_cast (by omega : 0 < 2 ^ 52 + x.mant)
      exact mul_pos this (by positivity)
    have e3 : (2 : ℚ) ^ (52 : ℤ) * (2 : ℚ) ^ ((x.bexp : ℤ) - 1075) =
        (2 : ℚ) ^ ((x.bexp : ℤ) - 1023) := by
      rw [← zpow_add₀ h2]
      congr 1
      ring
    have hlow : ((2 : ℕ) : ℚ) ^ ((x.bexp : ℤ) - 1023) ≤ |x.val| := by
      rw [hn]
      have hc : (2 : ℚ) ^ (52 : ℤ) ≤ ((2 ^ 52 + x.mant : ℕ) : ℚ) := by
        have : ((2 ^ 52 : ℕ) : ℚ) ≤ ((2 ^ 52 + x.mant : ℕ) : ℚ) := by
          exact_mod_cast (by omega : (2 ^ 52 : ℕ) ≤ 2 ^ 52 + x.mant)
        calc (2 : ℚ) ^ (52 : ℤ) = ((2 ^ 52 : ℕ) : ℚ) := by push_cast; norm_num
        _ ≤ _ := this
      calc ((2 : ℕ) : ℚ) ^ ((x.bexp : ℤ) - 1023) =
          (2 : ℚ) ^ (52 : ℤ) * (2 : ℚ) ^ ((x.bexp : ℤ) - 1075) := by
            push_cast
            rw [e3]
      _ ≤ ((2 ^ 52 + x.mant : ℕ) : ℚ) * (2 : ℚ) ^ ((x.bexp : ℤ) - 1075) :=
            mul_le_mul_of_nonneg_right hc (by positivity)
    have hup : |x.val| < ((2 : ℕ) : ℚ) ^ ((x.bexp : ℤ) - 1022) := by
      have := F64.abs_val_lt_pow x h0
      calc |x.val| < (2 : ℚ) ^ ((x.bexp : ℤ) - 1022) := this
      _ = ((2 : ℕ) : ℚ) ^ ((x.bexp : ℤ) - 1022) := by push_cast; ring
    have hlog : Int.log 2 |x.val| = (x.bexp : ℤ) - 1023 := by
      have hA : (x.bexp : ℤ) - 1023 ≤ Int.log 2 |x.val| :=
        (Int.zpow_le_iff_le_log (by norm_num) hpos).mp hlow
      have hB : Int.log 2 |x.val| < (x.bexp : ℤ) - 1022 :=
        (Int.lt_zpow_iff_log_lt (by norm_num) hpos).mp hup
      omega
    have hc1 : ¬((x.bexp : ℤ) - 1023 < -1022) := by omega
    have hbexp' : ((x.bexp : ℤ) - 1023 + 1023).toNat = x.bexp := by omega
    rw [hlog]
    simp only [if_neg hc1]
    have h1lt : x.bexp > 0 := h1le
    rw [hbexp', if_pos h1lt]
    have hscale : (2 : ℚ) ^ (52 : ℕ) *
        (|x.val| / (2 : ℚ) ^ ((x.bexp : ℤ) - 1023) - 1) = (x.mant : ℚ) := by
      rw [hn]
      have key : (2 : ℚ) ^ ((x.bexp : ℤ) - 1075) / (2 : ℚ) ^ ((x.bexp : ℤ) - 1023) =
          (2 : ℚ) ^ (-52 : ℤ) := by
        rw [div_eq_mul_inv, ← zpow_neg, ← zpow_add₀ h2]
        norm_num
      have e2 : (2 : ℚ) ^ ((52 : ℕ) : ℤ) * (2 : ℚ) ^ (-52 : ℤ) = 1 := by
        rw [← zpow_add₀ h2]
        norm_num
      rw [mul_div_assoc, key]
      push_cast
      linear_combination ((4503599627370496 : ℚ) + (x.mant : ℚ)) * e2
    rw [hscale, Int.floor_natCast, Int.toNat_natCast]

theorem f64_from_parts_congr {s1 s2 : Int} {b1 b2 m1 m2 : Nat}
    (h1 : s1 = s2) (h2 : b1 = b2) (h3 : m1 = m2) :
    f64_from_parts s1 b1 m1 = f64_from_parts s2 b2 m2 := by
  subst h1
  subst h2
  subst h3
  rfl

theorem f64_from_to_bytes_parts (sign : Int) (hs : sign = 1 ∨ sign = -1)
    (bexp mant : Nat) (hb : bexp < 2048) (hm : mant < 2 ^ 52) :
    f64_from_bytes [(if sign < 0 then bexp + 0x800 else bexp) / 2 ^ 4,
      bexp * 2 ^ 4 % 256 + mant / 2 ^ 48,
      mant / 2 ^ 40 % 256, mant / 2 ^ 32 % 256, mant / 2 ^ 24 % 256,
      mant / 2 ^ 16 % 256, mant / 2 ^ 8 % 256, mant % 256] =
    f64_from_parts sign bexp mant := by
  unfold f64_from_bytes
  dsimp only
  rcases hs with rfl | rfl
  · rw [if_neg (by norm_num : ¬(1 : Int) < 0)]
    apply f64_from_parts_congr
    · rw [if_neg (show ¬(bexp / 2 ^ 4 / 128 % 2 = 1) by omega)]
    · omega
    · omega
  · rw [if_pos (by norm_num : (-1 : Int) < 0)]
    apply f64_from_parts_congr
    · rw [if_pos (show (bexp + 0x800) / 2 ^ 4 / 128 % 2 = 1 by omega)]
    · omega
    · omega

/-- C8: Binary64 byte round-trip: every f64 that is not NaN (including signed
zeros, subnormals and infinities) survives f64_to_bytes followed by
f64_from_bytes bitwise, and every NaN serializes to exactly the canonical
bytes 7F F8 00 00 00 00 00 00, which f64_from_bytes maps back to a NaN. -/
theorem c8_binary64_round_trip (x : F64) :
    (¬x.isNan → f64_from_bytes (f64_to_bytes x) = x) ∧
    (x.isNan → f64_to_bytes x = [0x7F, 0xF8, 0, 0, 0, 0, 0, 0] ∧
      (f64_from_bytes (f64_to_bytes x)).isNan) := by
  constructor
  · intro hnan
    have hsor : (if x.sign then (-1 : Int) else 1) = 1 ∨
        (if x.sign then (-1 : Int) else 1) = -1 := by
      cases x.sign <;> simp
    by_cases hb : x.bexp = 2047
    · have hm : x.mant = 0 := by
        by_contra h
        exact hnan ⟨hb, h⟩
      have hp : f64_to_parts x = (if x.sign then -1 else 1, 0x7FF, 0) := by
        unfold f64_to_parts
        rw [if_neg hnan, if_pos hb]
      unfold f64_to_bytes
      rw [hp]
      dsimp only
      rw [f64_from_to_bytes_parts _ hsor _ _ (by norm_num) (by norm_num)]
      by_cases hs : x.sign = true
      · rw [hs]
        norm_num [f64_from_parts]
        exact F64.ext' hs.symm hb.symm hm.symm
      · rw [Bool.not_eq_true] at hs
        rw [hs]
        norm_num [f64_from_parts]
        exact F64.ext' hs.symm hb.symm hm.symm
    · by_cases hz : x.bexp = 0 ∧ x.mant = 0
      · have hp : f64_to_parts x = (if x.sign then -1 else 1, 0, 0) := by
          unfold f64_to_parts
          rw [if_neg hnan, if_neg hb, if_pos hz]
        unfold f64_to_bytes
        rw [hp]
        dsimp only
        rw [f64_from_to_bytes_parts _ hsor _ _ (by norm_num) (by norm_num)]
        by_cases hs : x.sign = true
        · rw [hs]
          norm_num [f64_from_parts, f64NegZero]
          exact F64.ext' hs.symm hz.1.symm hz.2.symm
        · rw [Bool.not_eq_true] at hs
          rw [hs]
          norm_num [f64_from_parts, f64PosZero]
          exact F64.ext' hs.symm hz.1.symm hz.2.symm
      · have hp := f64_to_parts_finite hb hz
        unfold f64_to_bytes
        rw [hp]
        dsimp only
        rw [f64_from_to_bytes_parts _ hsor _ _ x.bexp_lt x.mant_lt]
        unfold f64_from_parts
        rw [if_neg hb, if_neg hz, dif_pos ⟨x.bexp_lt, x.mant_lt⟩]
        refine F64.ext' ?_ rfl rfl
        cases hs : x.sign <;> rfl
  · intro hnan
    have hp : f64_to_parts x = (1, 0x7FF, 2 ^ 51) := by
      unfold f64_to_parts
      rw [if_pos hnan]
    constructor
    · unfold f64_to_bytes
      rw [hp]
      decide
    · unfold f64_to_bytes
      rw [hp]
      decide

theorem c8_binary64_round_trip_witness :
    (¬(⟨true, 1027, 123, by norm_num, by norm_num⟩ : F64).isNan ∧
      f64_from_bytes (f64_to_bytes ⟨true, 1027, 123, by norm_num, by norm_num⟩) =
        ⟨true, 1027, 123, by norm_num, by norm_num⟩) ∧
    ((⟨false, 2047, 5, by norm_num, by norm_num⟩ : F64).isNan ∧
      f64_to_bytes ⟨false, 2047, 5, by norm_num, by norm_num⟩ =
        [0x7F, 0xF8, 0, 0, 0, 0, 0, 0]) :=
  ⟨⟨by decide, (c8_binary64_round_trip _).1 (by decide)⟩,
   ⟨by decide, ((c8_binary64_round_trip _).2 (by decide)).1⟩⟩

/-- enum Token from json.rs. -/
inductive JTok where
  | Int
  | Float
  | String
  | Punctuation
  | Identifier
deriving DecidableEq

/-- enum TokState from json.rs. -/
inductive TokState where
  | Begin
  | String
  | StringEscape
  | StringEnd
  | Number
  | NegNumber
  | NumberFrac
  | NumberExpSig
  | NumberExp
  | Identifier
  | Whitespace
deriving DecidableEq

/-- char::is_digit(10): exactly the ten ASCII digits, for every char. -/
def rustIsDigit (c : Char) : Bool := '0' ≤ c && c ≤ '9'

/-- The ASCII fragment of char::is_whitespace (TAB, LF, VT, FF, CR, SPACE);
every input appearing in a theorem below is ASCII, where this is exact. -/
def rustIsWhitespace (c : Char) : Bool :=
  c.toNat = 0x20 || (0x09 ≤ c.toNat && c.toNat ≤ 0x0D)

/-- The ASCII fragment of char::is_alphabetic; exact on the ASCII inputs
used below. -/
def rustIsAlpha (c : Char) : Bool :=
  ('a' ≤ c && c ≤ 'z') || ('A' ≤ c && c ≤ 'Z')

/-- The first match statement of the json_tokens loop: one state transition
on the current character, updating the token kind.  The slice s[begin..i]
of pending characters is carried explicitly as the list pend; leaving
Whitespace resets begin to the current index, i.e. empties pend. -/
def tokStep (st : TokState) (pend : List Char) (tok : JTok) (ch : Char) :
    TokState × List Char × JTok :=
  match st with
  | .Begin => (.Begin, pend, tok)
  | .NegNumber =>
    if rustIsDigit ch then (.Number, pend, .Int) else (.Begin, pend, tok)
  | .Number =>
    if ch = '.' then (.NumberFrac, pend, .Float)
    else if ch = 'e' ∨ ch = 'E' then (.NumberExpSig, pend, .Float)
    else if ¬rustIsDigit ch then (.Begin, pend, tok)
    else (.Number, pend, tok)
  | .NumberFrac =>
    if ch = 'e' ∨ ch = 'E' then (.NumberExpSig, pend, tok)
    else if ¬rustIsDigit ch then (.Begin, pend, tok)
    else (.NumberFrac, pend, tok)
  | .NumberExpSig =>
    if ch = '-' ∨ ch = '+' then (.NumberExp, pend, tok)
    else if rustIsDigit ch then (.NumberExp, pend, tok)
    else (.Begin, pend, tok)
  | .NumberExp =>
    if ¬rustIsDigit ch then (.Begin, pend, tok) else (.NumberExp, pend, tok)
  | .String =>
    if ch = '"' then (.StringEnd, pend, tok)
    else if ch = '\\' then (.StringEscape, pend, tok)
    else (.String, pend, tok)
  | .StringEnd => (.Begin, pend, tok)
  | .StringEscape => (.String, pend, tok)
  | .Identifier =>
    if ¬rustIsAlpha ch then (.Begin, pend, tok) else (.Identifier, pend, tok)
  | .Whitespace =>
    if ¬rustIsWhitespace ch then (.Begin, [], tok) else (.Whitespace, pend, tok)

/-- The loop of json_tokens.  In state Begin a nonempty pend (i > begin in
the source) is pushed as a finished token and the token kind resets to
Punctuation; then the current character is classified and starts the next
pending region.  At end of input a nonempty pend (begin < s.len()) is
pushed with the current token kind. -/
def json_tokens_go : List Char → TokState → List Char → JTok →
    List (JTok × List Char) → List (JTok × List Char)
  | [], _, pend, tok, acc => if pend = [] then acc else acc ++ [(tok, pend)]
  | ch :: rest, st, pend, tok, acc =>
    match tokStep st pend tok ch with
    | (.Begin, pend1, tok1) =>
      let acc2 := if pend1 = [] then acc else acc ++ [(tok1, pend1)]
      let tok2 := if pend1 = [] then tok1 else .Punctuation
      if ch = '"' then json_tokens_go rest .String [ch] .String acc2
      else if rustIsDigit ch then json_tokens_go rest .Number [ch] .Int acc2
      else if ch = '-' then json_tokens_go rest .NegNumber [ch] tok2 acc2
      else if rustIsWhitespace ch then
        json_tokens_go rest .Whitespace [ch] tok2 acc2
      else if rustIsAlpha ch then
        json_tokens_go rest .Identifier [ch] .Identifier acc2
      else json_tokens_go rest .Begin [ch] tok2 acc2
    | (st1, pend1, tok1) => json_tokens_go rest st1 (pend1 ++ [ch]) tok1 acc

/-- json_tokens from json.rs. -/
def json_tokens (s : List Char) : List (JTok × List Char) :=
  json_tokens_go s .Begin [] .Punctuation []

/-- unescape_str from json.rs: drop the first and last character and every
backslash in between.  The source computes n = s.len() - 1 and the slice
s[1..n]; for a token of length < 2 (a lone double quote produced by an
unterminated string at end of input) the subtraction underflows or the
slice bounds are invalid and the function panics, modelled as none.
Tokens are modelled at character level, so the byte-boundary slice panic
on multi-byte input is outside this model. -/
def unescape_str (s : List Char) : Option (List Char) :=
  if s.length < 2 then none
  else some (((s.drop 1).take (s.length - 2)).filter (fun c => c ≠ '\\'))

/-- Value of a nonempty all-digit string in base 10. -/
def digitsVal (s : List Char) : Option Nat :=
  if s = [] then none
  else if s.all rustIsDigit then
    some (s.foldl (fun a c => a * 10 + (c.toNat - 48)) 0)
  else none

/-- str::parse::<i64>() : an optional sign followed by decimal digits,
rejected (Err, hence a panic at the unwrap in json_value) when empty,
containing any other character, or denoting a value outside
[-2^63, 2^63). -/
def rustParseI64 (s : List Char) : Option Int :=
  match s with
  | '-' :: rest =>
    (digitsVal rest).bind fun n =>
      if (n : Int) ≤ 2 ^ 63 then some (-(n : Int)) else none
  | '+' :: rest =>
    (digitsVal rest).bind fun n =>
      if (n : Int) < 2 ^ 63 then some n else none
  | _ =>
    (digitsVal s).bind fun n =>
      if (n : Int) < 2 ^ 63 then some n else none

/-- The JSON values built by the parser in json.rs.  Float keeps the raw
token text: f64 literal parsing is orthogonal to the control flow studied
here.  Object is the BTreeMap<String, JSON> as a lexicographically sorted
association list. -/
inductive JVal where
  | Null
  | Bool (b : Bool)
  | Int (n : Int)
  | Float (raw : List Char)
  | String (s : List Char)
  | Array (vs : List JVal)
  | Object (m : List (List Char × JVal))
  | Infinity

/-- BTreeMap::insert on the sorted association list (replacing an existing
binding of the same key). -/
def jmapInsert (k : List Char) (v : JVal) :
    List (List Char × JVal) → List (List Char × JVal)
  | [] => [(k, v)]
  | (k1, v1) :: rest =>
    match lexCmp ccmp k k1 with
    | .lt => (k, v) :: (k1, v1) :: rest
    | .eq => (k, v) :: rest
    | .gt => (k1, v1) :: jmapInsert k v rest

/-- enum JSONParseError from json.rs. -/
inductive JSONParseError where
  | EOF
  | UnexpectedToken (s : List Char)
deriving DecidableEq

/-- Outcome of a parsing function.  ok and err carry the tokens left in the
shared iterator; panicked is an unwrap or slice panic (the process aborts,
nothing else is returned); outOfFuel is an artifact of the explicit
recursion-depth fuel of the model and is never reached with fuel above
twice the token count. -/
inductive PRes (α : Type) where
  | ok (a : α) (rest : List (JTok × List Char))
  | err (e : JSONParseError) (rest : List (JTok × List Char))
  | panicked
  | outOfFuel
deriving DecidableEq

mutual

/-- json_value from json.rs.  An Int token is fed to parse::<i64>().unwrap()
(panics when out of range); a String token to unescape_str (panics on a
one-character token); '[' and '{' enter json_array and the json_object
loop. -/
def json_value (fuel : Nat) (ts : List (JTok × List Char)) :
    PRes JVal :=
  match fuel with
  | 0 => .outOfFuel
  | fuel + 1 =>
    match ts with
    | [] => .err .EOF []
    | (t, s) :: rest =>
      match t with
      | .Int =>
        match rustParseI64 s with
        | some n => .ok (.Int n) rest
        | none => .panicked
      | .Float => .ok (.Float s) rest
      | .String =>
        match unescape_str s with
        | some u => .ok (.String u) rest
        | none => .panicked
      | .Identifier =>
        if s = "null".toList then .ok .Null rest
        else if s = "true".toList then .ok (.Bool true) rest
        else if s = "false".toList then .ok (.Bool false) rest
        else if s = "infinity".toList then .ok .Infinity rest
        else .err (.UnexpectedToken s) rest
      | .Punctuation =>
        match s with
        | [] => .err (.UnexpectedToken s) rest
        | ch :: _ =>
          if ch = '[' then json_array fuel rest
          else if ch = '{' then json_object_loop fuel rest [] true
          else .err (.UnexpectedToken s) rest
termination_by structural fuel

/-- json_array from json.rs, entered after '[': a first json_value (whose
UnexpectedToken "]" closes the empty array), then the comma loop. -/
def json_array (fuel : Nat) (ts : List (JTok × List Char)) :
    PRes JVal :=
  match fuel with
  | 0 => .outOfFuel
  | fuel + 1 =>
    match json_value fuel ts with
    | .ok v rest => json_array_loop fuel rest [v]
    | .err (.UnexpectedToken s) rest =>
      if s = "]".toList then .ok (.Array []) rest
      else .err (.UnexpectedToken s) rest
    | r => r
termination_by structural fuel

/-- The loop of json_array: ']' (tested on the first character only) ends
the array, ',' parses the next element. -/
def json_array_loop (fuel : Nat) (ts : List (JTok × List Char))
    (vs : List JVal) : PRes JVal :=
  match fuel with
  | 0 => .outOfFuel
  | fuel + 1 =>
    match ts with
    | [] => .err .EOF []
    | (t, s) :: rest =>
      match t with
      | .Punctuation =>
        match s with
        | [] => .err (.UnexpectedToken s) rest
        | ch :: _ =>
          if ch = ']' then .ok (.Array vs) rest
          else if ch = ',' then
            match json_value fuel rest with
            | .ok v rest2 => json_array_loop fuel rest2 (vs ++ [v])
            | r => r
          else .err (.UnexpectedToken s) rest
      | _ => .err (.UnexpectedToken s) rest
termination_by structural fuel

/-- Head of the json_object loop (json.rs), entered after '{' with
first = true: on a later iteration a '}' token ends the object and ','
continues; then control falls to the key/colon/value step. -/
def json_object_loop (fuel : Nat) (ts : List (JTok × List Char))
    (m : List (List Char × JVal)) (first : Bool) : PRes JVal :=
  match fuel with
  | 0 => .outOfFuel
  | fuel + 1 =>
    if first then json_object_entry fuel ts m first
    else
      match ts with
      | [] => .err .EOF []
      | (t, s) :: rest =>
        match t with
        | .Punctuation =>
          if s = ['\x7d'] then .ok (.Object m) rest
          else if s = ",".toList then json_object_entry fuel rest m first
          else .err (.UnexpectedToken s) rest
        | _ => .err (.UnexpectedToken s) rest
termination_by structural fuel

/-- Body of the json_object loop (json.rs): a String key (through
unescape_str, which can panic), only on the first iteration a closing '}',
then ':' and a json_value, inserted into the map. -/
def json_object_entry (fuel : Nat) (ts : List (JTok × List Char))
    (m : List (List Char × JVal)) (first : Bool) : PRes JVal :=
  match fuel with
  | 0 => .outOfFuel
  | fuel + 1 =>
    match ts with
    | [] => .err .EOF []
    | (t, s) :: rest =>
      match t with
      | .Punctuation =>
        if s = ['\x7d'] ∧ first then .ok (.Object m) rest
        else .err (.UnexpectedToken s) rest
      | .String =>
        match unescape_str s with
        | none => .panicked
        | some key =>
          match rest with
          | [] => .err .EOF []
          | (t2, s2) :: rest2 =>
            match t2 with
            | .Punctuation =>
              if s2 = ":".toList then
                match json_value fuel rest2 with
                | .ok v rest3 =>
                  json_object_loop fuel rest3 (jmapInsert key v m) false
                | r => r
              else .err (.UnexpectedToken s2) rest2
            | _ => .err (.UnexpectedToken s2) rest2
      | _ => .err (.UnexpectedToken s) rest
termination_by structural fuel

end

/-- json_decode from json.rs: tokenize, then one json_value.  The fuel
2 |tokens| + 2 exceeds the recursion depth, which grows by at most two
per consumed token. -/
def json_decode (s : List Char) : PRes JVal :=
  let ts := json_tokens s
  json_value (2 * ts.length + 2) ts

/-- The loop of json_decode_all: json_value until an EOF error, which
returns the values collected so far. -/
def json_decode_all_go (fuel : Nat) (ts : List (JTok × List Char))
    (acc : List JVal) : PRes (List JVal) :=
  match fuel with
  | 0 => .outOfFuel
  | fuel + 1 =>
    match json_value (2 * ts.length + 2) ts with
    | .ok v rest => json_decode_all_go fuel rest (acc ++ [v])
    | .err .EOF _ => .ok acc []
    | .err e rest => .err e rest
    | .panicked => .panicked
    | .outOfFuel => .outOfFuel

/-- json_decode_all from json.rs. -/
def json_decode_all (s : List Char) : PRes (List JVal) :=
  let ts := json_tokens s
  json_decode_all_go (ts.length + 1) ts []

/-- C4: refuted — json_decode and json_decode_all do NOT return an error on
every ill-formed input: an Int token whose value lies outside the i64 range
reaches parse::<i64>().unwrap() and panics, and the single character '"'
tokenizes to a one-character String token on which unescape_str's slice
s[1..s.len()-1] panics.  Well-formed inputs, including the extreme i64
9223372036854775807, still parse; the first out-of-range literal
9223372036854775808 already panics. -/
theorem c4_json_decode_panics :
    json_decode "99999999999999999999999999".toList = .panicked ∧
    json_decode "\"".toList = .panicked ∧
    json_decode_all "99999999999999999999999999".toList = .panicked ∧
    json_decode "9223372036854775807".toList =
      .ok (.Int 9223372036854775807) [] ∧
    json_decode "9223372036854775808".toList = .panicked ∧
    json_decode ['\x7b', '"', 'a', '"', ':', ' ', '[', '1', ',', ' ', 't', 'r', 'u', 'e', ']', '\x7d'] =
      .ok (.Object [("a".toList, .Array [.Int 1, .Bool true])]) [] :=
  ⟨rfl, rfl, rfl, rfl, rfl, rfl⟩
